import Mathlib

/-!
Verification of the sibling-chain `Forest` core of the `trees` crate.

The embedding models machine memory as a heap of sibling links: every node is
identified by a positive natural-number address, and `Heap` maps each address
to the address stored in that node's next-sibling field (`sib` in
`src/sib/forest.rs`, `next` in `src/linked/singly/onto_iter.rs`).  Address `0`
plays the role of the null pointer.  Payloads are never read or written by any
of the operations under study, so they are kept outside the heap: a concrete
scenario fixes a payload map `Nat → Nat` separately.

A `Forest` holds only its tail pointer (`sub` field), a `Tree` is just its
root address, and the terminal / reset sibling state of a standalone root is
the self-loop `h root = root` (this is what makes a freshly pushed sole child
already satisfy circularity, as the spec notes).
-/

namespace Trees

/-- Sibling-link memory: address `↦` next-sibling address, `0` is null. -/
def Heap : Type := Nat → Nat

/-- Pointer write: store `v` in the sibling field of node `a`. -/
def upd (h : Heap) (a v : Nat) : Heap := fun x => if x = a then v else h x

@[simp] theorem upd_same (h : Heap) (a v : Nat) : upd h a v a = v := by
  simp [upd]

theorem upd_other (h : Heap) (a v x : Nat) (hx : x ≠ a) : upd h a v x = h x := by
  simp [upd, hx]

/-- `Forest<T>`: holds only the tail pointer `sub` (`src/sib/forest.rs`). -/
structure Forest where
  sub : Nat
deriving DecidableEq

/-- `Forest::new`: the empty forest (`sub` null). -/
def Forest.new : Forest := ⟨0⟩

/-- `Forest::is_empty`. -/
def Forest.is_empty (f : Forest) : Bool := f.sub == 0

/-- `Forest::head`: `(*self.sub).sib`. -/
def Forest.head (h : Heap) (f : Forest) : Nat := h f.sub

/-- `Forest::tail`: `self.sub`. -/
def Forest.tail (f : Forest) : Nat := f.sub

/-- `Forest::new_head`: `(*self.head()).sib`. -/
def Forest.new_head (h : Heap) (f : Forest) : Nat := h (f.head h)

/-- `Forest::has_only_one_child`: `head == tail`. -/
def Forest.has_only_one_child (h : Heap) (f : Forest) : Bool := f.head h == f.tail

/-- `Forest::adopt`: `(*self.tail()).sib = child`. -/
def Forest.adopt (h : Heap) (f : Forest) (child : Nat) : Heap := upd h f.tail child

/-- `Node::reset_sib` a fresh `Tree` root: terminal sibling state is the
self-loop, so `tr(x)` allocates a node whose sibling link points to itself. -/
def newTree (h : Heap) (r : Nat) : Heap := upd h r r

/-- `Forest::push_front` (`src/sib/forest.rs` lines 72-80): argument is the
root address of the pushed tree. -/
def push_front (h : Heap) (f : Forest) (r : Nat) : Heap × Forest :=
  if f.sub = 0 then
    (h, ⟨r⟩)
  else
    let h1 := upd h r (f.head h)      -- tree.set_sib( self.head() )
    (f.adopt h1 r, f)                 -- self.adopt( tree.root )

/-- `Forest::push_back` (`src/sib/forest.rs` lines 92-101). -/
def push_back (h : Heap) (f : Forest) (r : Nat) : Heap × Forest :=
  if f.sub ≠ 0 then
    let h1 := upd h r (f.head h)      -- tree.set_sib( self.head() )
    (f.adopt h1 r, ⟨r⟩)               -- self.adopt; self.set_child( tree.root )
  else
    (h, ⟨r⟩)

/-- `Forest::pop_front` (`src/sib/forest.rs` lines 113-126): returns the new
heap, the new forest and the departed head's root address (if any). -/
def pop_front (h : Heap) (f : Forest) : Heap × Forest × Option Nat :=
  if f.sub = 0 then
    (h, f, none)
  else
    let front := f.head h
    let hf : Heap × Forest :=
      if f.has_only_one_child h then (h, ⟨0⟩)              -- self.clear()
      else (upd h f.tail (f.new_head h), f)                -- (*tail).sib = new_head
    (upd hf.1 front front, hf.2, some front)               -- (*front).reset_sib()

/-- `Forest::prepend` (`src/sib/forest.rs` lines 139-150): `f.prepend(g)`;
returns the heap and both forests afterwards (`g` is consumed/cleared). -/
def prepend (h : Heap) (f g : Forest) : Heap × Forest × Forest :=
  if g.sub ≠ 0 then
    if f.sub = 0 then
      (h, ⟨g.tail⟩, ⟨0⟩)                                   -- self.set_child( forest.tail() )
    else
      let forest_head := g.head h
      let h1 := upd h g.tail (f.head h)                    -- forest.set_sib( self.head() )
      (f.adopt h1 forest_head, f, ⟨0⟩)                     -- self.adopt( forest_head )
  else
    (h, f, g)

/-- `Forest::append` (`src/sib/forest.rs` lines 163-173): `f.append(g)`. -/
def append (h : Heap) (f g : Forest) : Heap × Forest × Forest :=
  if g.sub ≠ 0 then
    if f.sub ≠ 0 then
      let forest_head := g.head h
      let h1 := upd h g.tail (f.head h)                    -- forest.set_sib( self.head() )
      (f.adopt h1 forest_head, ⟨g.tail⟩, ⟨0⟩)              -- adopt; self.set_child( forest.tail() )
    else
      (h, ⟨g.tail⟩, ⟨0⟩)
  else
    (h, f, g)

/-! ## The read-only children iterator

`Iter`/`IterMut` stepping is `src/bottom_up/full/iter.rs` lines 18-37 and
69-88 (the two bodies are identical up to mutability of the reference they
hand out, which has no observable content in this embedding, so both are
transliterated side by side below).  `Forest::children` in
`src/sib/forest.rs` passes head and tail. -/

/-- The `Iter` state: `head`, `tail`, `len` (`src/bottom_up/full/iter.rs`). -/
structure Iter where
  head : Nat
  tail : Nat
  len  : Nat
deriving DecidableEq

/-- `Iter::next` (`src/bottom_up/full/iter.rs` lines 21-34). -/
def Iter.next (h : Heap) (it : Iter) : Option Nat × Iter :=
  if it.head = 0 then
    (none, it)
  else
    let node := it.head
    let newHead := if it.head = it.tail then 0 else h node
    (some node, ⟨newHead, it.tail, it.len - 1⟩)

/-- `IterMut::next` (`src/bottom_up/full/iter.rs` lines 72-85): identical
link-following to `Iter::next`. -/
def IterMut.next (h : Heap) (it : Iter) : Option Nat × Iter :=
  if it.head = 0 then
    (none, it)
  else
    let node := it.head
    let newHead := if it.head = it.tail then 0 else h node
    (some node, ⟨newHead, it.tail, it.len - 1⟩)

/-- `Iter::size_hint`: `( len, Some(len) )`, both components equal. -/
def Iter.size_hint (it : Iter) : Nat × Option Nat := (it.len, some it.len)

/-- `Forest::children` (`src/sib/forest.rs` lines 187-193) hands `Iter` the
head and tail.  Modelled from the spec: the initial `len` field is the
forest's child count, which the spec fixes by "length known up front (size
hint is exact)"; the length bookkeeping that supplies it lives in the
`Forest` of the `bottom_up` module, outside the given sources. -/
def children (h : Heap) (f : Forest) (len : Nat) : Iter :=
  if f.sub = 0 then ⟨0, 0, len⟩
  else ⟨f.head h, f.tail, len⟩

/-- Drive an iterator `fuel` steps, collecting the yielded node addresses. -/
def iterToList (h : Heap) : Iter → Nat → List Nat
  | _, 0 => []
  | it, n + 1 =>
    match Iter.next h it with
    | (none, _) => []
    | (some a, it') => a :: iterToList h it' n

/-! ## The mutating cursor

`OntoIter` fields follow `src/linked/singly/onto_iter.rs` lines 91-98; the
`SubtreeIter` built by `Forest::subtrees` (`src/sib/forest.rs` lines 215-234)
is the same state under the names `tail`/`sub` for `child`/`ptail`.  The
`ptail` slot (`*mut *mut Node`) is the forest's own `sub` field, so here the
forest tail pointer is threaded through cursor operations explicitly as a
`Nat` value. -/

/-- Cursor state (`OntoIter`): `next`, `curr`, `prev`, `child` pointers. -/
structure OntoIter where
  next  : Nat
  curr  : Nat
  prev  : Nat
  child : Nat
deriving DecidableEq

/-- `Subnode`: the live handle; current node plus the cached predecessor. -/
structure Subnode where
  node : Nat
  prev : Nat
deriving DecidableEq

/-- `Forest::subtrees` (`src/sib/forest.rs` lines 215-234). -/
def subtrees (h : Heap) (f : Forest) : OntoIter :=
  if f.sub = 0 then
    ⟨0, 0, 0, 0⟩
  else
    ⟨f.head h, 0, f.sub, f.sub⟩

/-- The predecessor value the advance step settles on: `self.prev = self.curr`
exactly when `curr` is live and `(*self.prev).next != self.next`
(`src/linked/singly/onto_iter.rs` lines 109-113). -/
def computedPrev (h : Heap) (it : OntoIter) : Nat :=
  if it.curr ≠ 0 ∧ h it.prev ≠ it.next then it.curr else it.prev

/-- `OntoIter::next` (`src/linked/singly/onto_iter.rs` lines 103-125). -/
def ontoNext (h : Heap) (it : OntoIter) : Option Subnode × OntoIter :=
  if it.child ≠ 0 then
    if it.curr ≠ 0 ∧ (it.curr = it.child ∨ it.curr = it.next) then
      (none, it)                                   -- early return, state kept
    else
      if it.next ≠ 0 then
        (some ⟨it.next, computedPrev h it⟩,
          ⟨h it.next, it.next, computedPrev h it, it.child⟩)
      else                                         -- self.curr = self.next(=0)
        (none, ⟨it.next, it.next, computedPrev h it, it.child⟩)
  else
    (none, it)

/-- `Subnode::insert_before` (`src/linked/singly/onto_iter.rs` lines 26-32);
`s` is the forest tail slot `*ptail` (untouched here), `r` the tree root. -/
def insert_before (h : Heap) (s : Nat) (sn : Subnode) (r : Nat) : Heap × Nat :=
  let h1 := upd h r sn.node        -- sib.root.next = self.node
  let h2 := upd h1 sn.prev r       -- (*self.prev).next = sib.root
  (h2, s)

/-- `Subnode::insert_after` (`src/linked/singly/onto_iter.rs` lines 45-54). -/
def insert_after (h : Heap) (s : Nat) (sn : Subnode) (r : Nat) : Heap × Nat :=
  let h1 := upd h r (h sn.node)                    -- sib.root.next = self.node.next
  let h2 := upd h1 sn.node r                       -- self.node.next = sib.root
  let s' := if s = sn.node then r else s           -- if *ptail == node { *ptail = root }
  (h2, s')

/-- `Subnode::depart` (`src/linked/singly/onto_iter.rs` lines 67-80): returns
the heap, the forest tail slot and the departed root. -/
def depart (h : Heap) (s : Nat) (sn : Subnode) : Heap × Nat × Nat :=
  let s' := if s = sn.node then (if h sn.node = sn.node then 0 else sn.prev) else s
  let h1 := upd h sn.prev (h sn.node)              -- (*self.prev).next = self.node.next
  let h2 := upd h1 sn.node sn.node                 -- self.node.reset_sib()
  (h2, s', sn.node)

/-! ## Cursor sessions

A session is a list of moves; each move advances the cursor once and, if a
handle was produced, optionally performs exactly one structural mutation on
it before the handle is given up. -/

/-- One cursor move: plain advance, advance-then-`insert_before`,
advance-then-`insert_after`, or advance-then-`depart`. -/
inductive Move where
  | adv : Move
  | bef (r : Nat) : Move
  | aft (r : Nat) : Move
  | det : Move
deriving DecidableEq

def Move.isAft : Move → Bool
  | .aft _ => true
  | _ => false

/-- The tree root a move inserts, if any. -/
def movRoot : Move → Option Nat
  | .bef r => some r
  | .aft r => some r
  | _ => none

def movRoots (ms : List Move) : List Nat := ms.filterMap movRoot

/-- Session state: the heap, the forest's tail slot, the cursor. -/
structure Sess where
  h : Heap
  s : Nat
  it : OntoIter

/-- Result of one move: new state, the yielded node, the departed root and
the inserted root (each if any). -/
structure StepOut where
  st : Sess
  yld : Option Nat
  dep : Option Nat
  ins : Option Nat

/-- Execute one move: advance; if a handle appeared, run the move's mutation
through it.  A move after exhaustion mutates nothing (there is no handle). -/
def doMove (st : Sess) (m : Move) : StepOut :=
  match ontoNext st.h st.it with
  | (none, it') => ⟨⟨st.h, st.s, it'⟩, none, none, none⟩
  | (some sn, it') =>
    match m with
    | .adv => ⟨⟨st.h, st.s, it'⟩, some sn.node, none, none⟩
    | .bef r =>
      let q := insert_before st.h st.s sn r
      ⟨⟨q.1, q.2, it'⟩, some sn.node, none, some r⟩
    | .aft r =>
      let q := insert_after st.h st.s sn r
      ⟨⟨q.1, q.2, it'⟩, some sn.node, none, some r⟩
    | .det =>
      let q := depart st.h st.s sn
      ⟨⟨q.1, q.2.1, it'⟩, some sn.node, some q.2.2, none⟩

/-- Result of a whole session: final state plus the yield, depart and insert
event logs. -/
structure RunOut where
  st : Sess
  ylds : List Nat
  deps : List Nat
  inss : List Nat

/-- Run a list of moves. -/
def run (st : Sess) : List Move → RunOut
  | [] => ⟨st, [], [], []⟩
  | m :: ms =>
    let o := doMove st m
    let o' := run o.st ms
    ⟨o'.st, o.yld.toList ++ o'.ylds, o.dep.toList ++ o'.deps, o.ins.toList ++ o'.inss⟩

/-! ## The representation predicate -/

/-- `chainLinks h hd l`: walking `l`, every node's sibling link points to the
next entry, and the last entry's link points to `hd` (the closing of the
cycle when `hd` is the chain's head). -/
def chainLinks (h : Heap) (hd : Nat) : List Nat → Prop
  | [] => True
  | a :: l => h a = l.headD hd ∧ chainLinks h hd l

instance chainLinksDec (h : Heap) (hd : Nat) : (l : List Nat) → Decidable (chainLinks h hd l)
  | [] => .isTrue trivial
  | a :: l =>
    have : Decidable (chainLinks h hd l) := chainLinksDec h hd l
    inferInstanceAs (Decidable (h a = l.headD hd ∧ chainLinks h hd l))

/-- `reprF h f c`: the forest `f` validly owns exactly the chain `c` (listed
head first, tail last) in heap `h`: the tail slot holds the last address (or
null when empty), consecutive sibling links follow `c`, the tail links back
to the head, and the addresses are distinct and nonnull. -/
def reprF (h : Heap) (f : Forest) (c : List Nat) : Prop :=
  c.getLastD 0 = f.sub ∧ chainLinks h (c.headD 0) c ∧ c.Nodup ∧ 0 ∉ c

instance (h : Heap) (f : Forest) (c : List Nat) : Decidable (reprF h f c) :=
  inferInstanceAs (Decidable (_ ∧ _ ∧ _ ∧ _))

/-! ## List helpers -/

theorem hdD_app (xs ys : List Nat) (d : Nat) :
    (xs ++ ys).headD d = xs.headD (ys.headD d) := by
  cases xs <;> rfl

theorem glD_irrel (l : List Nat) (hl : l ≠ []) (d e : Nat) :
    l.getLastD d = l.getLastD e := by
  cases l with
  | nil => exact absurd rfl hl
  | cons a l => rw [List.getLastD_cons, List.getLastD_cons]

theorem glD_app (xs ys : List Nat) (d : Nat) (hy : ys ≠ []) :
    (xs ++ ys).getLastD d = ys.getLastD d := by
  induction xs generalizing d with
  | nil => rfl
  | cons a xs ih =>
    rw [List.cons_append, List.getLastD_cons]
    rw [glD_irrel (xs ++ ys) (by simp [hy]) a d]
    exact ih d

theorem glD_mem (l : List Nat) (hl : l ≠ []) (d : Nat) : l.getLastD d ∈ l := by
  induction l generalizing d with
  | nil => exact absurd rfl hl
  | cons a l ih =>
    rw [List.getLastD_cons]
    cases l with
    | nil => simp [List.getLastD]
    | cons b t => exact List.mem_cons_of_mem a (ih (by simp) a)

/-! ## Chain-link lemmas -/

@[simp] theorem cl_nil (h : Heap) (hd : Nat) : chainLinks h hd [] := trivial

theorem cl_cons (h : Heap) (hd a : Nat) (l : List Nat) :
    chainLinks h hd (a :: l) ↔ h a = l.headD hd ∧ chainLinks h hd l := Iff.rfl

theorem cl_append (h : Heap) (hd : Nat) (xs ys : List Nat) :
    chainLinks h hd (xs ++ ys) ↔
      chainLinks h (ys.headD hd) xs ∧ chainLinks h hd ys := by
  induction xs with
  | nil => simp [cl_cons, chainLinks]
  | cons a xs ih =>
    rw [List.cons_append, cl_cons, cl_cons, ih, hdD_app]
    tauto

theorem cl_frame (h h' : Heap) (hd : Nat) (l : List Nat)
    (hagree : ∀ a ∈ l, h' a = h a) :
    chainLinks h' hd l ↔ chainLinks h hd l := by
  induction l with
  | nil => simp
  | cons a l ih =>
    rw [cl_cons, cl_cons, hagree a (by simp),
      ih (fun b hb => hagree b (List.mem_cons_of_mem a hb))]

theorem cl_last (h : Heap) (hd : Nat) (l : List Nat) (hl : l ≠ [])
    (hc : chainLinks h hd l) : h (l.getLastD 0) = hd := by
  induction l with
  | nil => exact absurd rfl hl
  | cons a l ih =>
    rw [List.getLastD_cons]
    cases l with
    | nil => simpa [List.getLastD, chainLinks] using hc
    | cons b t =>
      rw [glD_irrel (b :: t) (by simp) a 0]
      exact ih (by simp) hc.2

/-! ## reprF accessors -/

theorem reprF_sub (h : Heap) (f : Forest) (c : List Nat) (hr : reprF h f c) :
    c.getLastD 0 = f.sub := hr.1

theorem reprF_links (h : Heap) (f : Forest) (c : List Nat) (hr : reprF h f c) :
    chainLinks h (c.headD 0) c := hr.2.1

theorem reprF_nodup (h : Heap) (f : Forest) (c : List Nat) (hr : reprF h f c) :
    c.Nodup := hr.2.2.1

theorem reprF_pos (h : Heap) (f : Forest) (c : List Nat) (hr : reprF h f c) :
    0 ∉ c := hr.2.2.2

theorem reprF_sub_mem (h : Heap) (f : Forest) (c : List Nat) (hr : reprF h f c)
    (hc : c ≠ []) : f.sub ∈ c := hr.1 ▸ glD_mem c hc 0

theorem reprF_zero_iff (h : Heap) (f : Forest) (c : List Nat) (hr : reprF h f c) :
    f.sub = 0 ↔ c = [] := by
  constructor
  · intro h0
    by_contra hc
    exact hr.2.2.2 (h0 ▸ reprF_sub_mem h f c hr hc)
  · intro hc
    subst hc
    exact hr.1.symm

theorem reprF_head_link (h : Heap) (f : Forest) (c : List Nat) (hr : reprF h f c)
    (hc : c ≠ []) : h f.sub = c.headD 0 :=
  hr.1 ▸ cl_last h (c.headD 0) c hc hr.2.1

theorem hdD_irrel (l : List Nat) (hl : l ≠ []) (d e : Nat) :
    l.headD d = l.headD e := by
  cases l with
  | nil => exact absurd rfl hl
  | cons a t => rfl

/-- Rewiring the closing link: if `h'` agrees with `h` on every element of
`u` except possibly its last, and stores `v` in the last element, then a
chain closing at `e` under `h` closes at `v` under `h'`. -/
theorem cl_change_last (h h' : Heap) (u : List Nat) (d e v : Nat)
    (hnd : u.Nodup)
    (hagree : ∀ a ∈ u, a ≠ u.getLastD d → h' a = h a)
    (hlast : h' (u.getLastD d) = v)
    (hc : chainLinks h e u) : chainLinks h' v u := by
  induction u generalizing d e with
  | nil => trivial
  | cons a u ih =>
    rw [List.getLastD_cons] at hlast
    rw [cl_cons]
    cases u with
    | nil =>
      exact ⟨hlast, trivial⟩
    | cons b t =>
      have hne : a ≠ (b :: t).getLastD a := by
        intro heq
        exact (List.nodup_cons.mp hnd).1 (heq ▸ glD_mem (b :: t) (by simp) a)
      constructor
      · rw [hagree a (by simp) (by rw [List.getLastD_cons]; exact hne),
          (hc.1 : h a = (b :: t).headD e), hdD_irrel (b :: t) (by simp) e v]
      · exact ih a e (List.nodup_cons.mp hnd).2
          (fun x hx hxne => hagree x (List.mem_cons_of_mem a hx)
            (by rw [List.getLastD_cons]; exact hxne))
          hlast hc.2

theorem reprF_frame (h h' : Heap) (f : Forest) (c : List Nat)
    (hagree : ∀ a ∈ c, h' a = h a) (hr : reprF h f c) : reprF h' f c :=
  ⟨hr.1, (cl_frame h h' (c.headD 0) c hagree).mpr hr.2.1, hr.2.2⟩

/-! ## Splice lemmas: the pointer surgeries that every operation reduces to -/

/-- Insertion: valid chain `u ++ w` (`w` nonempty), fresh node `r`; pointing
`r` at `w`'s head and the predecessor of `w`'s head (last of `u`, or the
chain tail if `u` is empty) at `r` gives the valid chain `u ++ r :: w` with
the same tail slot. -/
theorem splice_insert (h : Heap) (f : Forest) (u w : List Nat) (r : Nat)
    (hr : reprF h f (u ++ w)) (hw : w ≠ []) (hfr : r ∉ u ++ w) (hr0 : r ≠ 0) :
    reprF (upd (upd h r (w.headD 0)) (u.getLastD ((u ++ w).getLastD 0)) r) f
      (u ++ r :: w) := by
  have hnd : (u ++ w).Nodup := hr.2.2.1
  have hru : r ∉ u := fun hm => hfr (List.mem_append_left w hm)
  have hrw : r ∉ w := fun hm => hfr (List.mem_append_right u hm)
  have hglD : (u ++ r :: w).getLastD 0 = f.sub := by
    rw [glD_app u (r :: w) 0 (by simp), List.getLastD_cons,
      glD_irrel w hw r 0, ← glD_app u w 0 hw]
    exact hr.1
  have hndnew : (u ++ r :: w).Nodup :=
    (List.nodup_middle).mpr (List.nodup_cons.mpr ⟨hfr, hnd⟩)
  have hposnew : 0 ∉ u ++ r :: w := by
    intro hmem
    rcases List.mem_append.mp hmem with hx | hx
    · exact hr.2.2.2 (List.mem_append_left w hx)
    · rcases List.mem_cons.mp hx with hx | hx
      · exact hr0 hx.symm
      · exact hr.2.2.2 (List.mem_append_right u hx)
  refine ⟨hglD, ?_, hndnew, hposnew⟩
  cases u with
  | nil =>
    -- new chain is r :: w; the old chain was w, tail self-closing at w's head
    have horig : chainLinks h (w.headD 0) w := hr.2.1
    set q := ([] : List Nat).getLastD (([] ++ w).getLastD 0) with hqdef
    have hqw : q = w.getLastD 0 := by rw [hqdef]; simp
    have hqmem : q ∈ w := hqw ▸ glD_mem w hw 0
    have hrq : r ≠ q := fun he => hrw (he ▸ hqmem)
    show chainLinks (upd (upd h r (w.headD 0)) q r) ((r :: w).headD 0) (r :: w)
    rw [List.headD_cons, cl_cons]
    have hh2r : (upd (upd h r (w.headD 0)) q r) r = w.headD 0 := by
      rw [upd_other _ _ _ _ hrq, upd_same]
    refine ⟨by rw [hh2r]; exact hdD_irrel w hw 0 r, ?_⟩
    apply cl_change_last h _ w 0 (w.headD 0) r hnd
    · intro x hx hxne
      have hxr : x ≠ r := fun he => hrw (he ▸ hx)
      have hxq : x ≠ q := hqw ▸ hxne
      rw [upd_other _ _ _ _ hxq, upd_other _ _ _ _ hxr]
    · rw [← hqw, upd_same]
    · exact horig
  | cons a t =>
    have hune : (a :: t : List Nat) ≠ [] := by simp
    have horig := hr.2.1
    rw [cl_append] at horig
    set q := (a :: t).getLastD (((a :: t) ++ w).getLastD 0) with hqdef
    have hqu : q = (a :: t).getLastD 0 := by
      rw [hqdef]; exact glD_irrel (a :: t) hune _ 0
    have hqmem : q ∈ (a :: t) := hqu ▸ glD_mem (a :: t) hune 0
    have hrq : r ≠ q := fun he => hru (he ▸ hqmem)
    have hh2r : (upd (upd h r (w.headD 0)) q r) r = w.headD 0 := by
      rw [upd_other _ _ _ _ hrq, upd_same]
    rw [cl_append]
    constructor
    · -- the chain over a :: t, now closing at r
      show chainLinks _ ((r :: w).headD ((a :: t ++ r :: w).headD 0)) (a :: t)
      rw [List.headD_cons]
      apply cl_change_last h _ (a :: t) 0
          (w.headD ((a :: t ++ w).headD 0)) r hnd.of_append_left
      · intro x hx hxne
        have hxr : x ≠ r := fun he => hru (he ▸ hx)
        have hxq : x ≠ q := hqu ▸ hxne
        rw [upd_other _ _ _ _ hxq, upd_other _ _ _ _ hxr]
      · rw [← hqu, upd_same]
      · exact horig.1
    · show chainLinks _ ((a :: t ++ r :: w).headD 0) (r :: w)
      have hhd2 : (a :: t ++ r :: w).headD 0 = a := rfl
      have hhd : (a :: t ++ w).headD 0 = a := rfl
      rw [cl_cons, hhd2]
      constructor
      · rw [hh2r]; exact hdD_irrel w hw 0 a
      · have hframe : ∀ x ∈ w, (upd (upd h r (w.headD 0)) q r) x = h x := by
          intro x hx
          have hxr : x ≠ r := fun he => hrw (he ▸ hx)
          have hxq : x ≠ q := fun he =>
            List.disjoint_of_nodup_append hnd (he ▸ hqmem) hx
          rw [upd_other _ _ _ _ hxq, upd_other _ _ _ _ hxr]
        rw [cl_frame h _ _ w hframe]
        have h2 := horig.2
        rwa [hhd] at h2

/-- Appending at the end: valid chain `c`, fresh `r`; pointing `r` at the
head and the old tail at `r` gives the valid chain `c ++ [r]` whose tail
slot is `r`. -/
theorem splice_end (h : Heap) (f : Forest) (c : List Nat) (r : Nat)
    (hr : reprF h f c) (hc : c ≠ []) (hfr : r ∉ c) (hr0 : r ≠ 0) :
    reprF (upd (upd h r (c.headD 0)) f.sub r) ⟨r⟩ (c ++ [r]) := by
  have hnd : c.Nodup := hr.2.2.1
  have hsubmem : f.sub ∈ c := reprF_sub_mem h f c hr hc
  have hrs : r ≠ f.sub := fun he => hfr (he ▸ hsubmem)
  refine ⟨by rw [List.getLastD_concat], ?_, ?_, ?_⟩
  · rw [cl_append]
    constructor
    · show chainLinks _ (([r] : List Nat).headD ((c ++ [r]).headD 0)) c
      rw [List.headD_cons]
      apply cl_change_last h _ c 0 (c.headD 0) r hnd
      · intro x hx hxne
        have hxs : x ≠ f.sub := fun he => hxne (he.trans hr.1.symm)
        have hxr : x ≠ r := fun he => hfr (he ▸ hx)
        rw [upd_other _ _ _ _ hxs, upd_other _ _ _ _ hxr]
      · rw [hr.1, upd_same]
      · exact hr.2.1
    · show chainLinks _ ((c ++ [r]).headD 0) [r]
      refine ⟨?_, trivial⟩
      show (upd (upd h r (c.headD 0)) f.sub r) r = ([] : List Nat).headD ((c ++ [r]).headD 0)
      rw [upd_other _ _ _ _ hrs, upd_same]
      show c.headD 0 = (c ++ [r]).headD 0
      rw [hdD_app c [r] 0, List.headD_cons]
      exact hdD_irrel c hc 0 r
  · exact hnd.append (List.nodup_singleton r)
      (List.disjoint_singleton.mpr hfr)
  · intro hmem
    rcases List.mem_append.mp hmem with hx | hx
    · exact hr.2.2.2 hx
    · rcases List.mem_cons.mp hx with hx | hx
      · exact hr0 hx.symm
      · simp at hx

/-- Removal: valid chain `xs ++ n :: ys`; redirecting the predecessor of `n`
around it and resetting `n`'s sibling link gives the valid chain `xs ++ ys`,
with the tail slot cleared to `0` when the chain empties, moved to the
predecessor when `n` was the tail, and unchanged otherwise.  (The first two
cases coincide with `xs.getLastD 0`, which is `0` for `xs = []`.) -/
theorem remove_repr (h : Heap) (f : Forest) (xs ys : List Nat) (n : Nat)
    (hr : reprF h f (xs ++ n :: ys)) :
    reprF (upd (upd h (xs.getLastD ((xs ++ n :: ys).getLastD 0)) (h n)) n n)
      ⟨if ys = [] then xs.getLastD 0 else f.sub⟩ (xs ++ ys) := by
  have hnd : (xs ++ n :: ys).Nodup := hr.2.2.1
  have hnmem : n ∈ xs ++ n :: ys := List.mem_append_right xs (by simp)
  have hnxs : n ∉ xs := fun hm =>
    List.disjoint_of_nodup_append hnd hm (by simp)
  have hnys : n ∉ ys := (List.nodup_cons.mp hnd.of_append_right).1
  have hndnew : (xs ++ ys).Nodup := by
    have := (List.nodup_middle).mp hnd
    exact (List.nodup_cons.mp this).2
  have hposnew : 0 ∉ xs ++ ys := by
    intro hmem
    rcases List.mem_append.mp hmem with hx | hx
    · exact hr.2.2.2 (List.mem_append_left _ hx)
    · exact hr.2.2.2 (List.mem_append_right _ (List.mem_cons_of_mem n hx))
  cases xs with
  | nil =>
    cases ys with
    | nil =>
      -- sole child: chain empties
      exact ⟨rfl, trivial, List.nodup_nil, by simp⟩
    | cons b t =>
      -- n was the head (not sole): tail unchanged, its link skips to b
      have hys : (b :: t : List Nat) ≠ [] := by simp
      have horig : chainLinks h n (n :: b :: t) := hr.2.1
      set q := ([] : List Nat).getLastD (([] ++ n :: b :: t).getLastD 0) with hqdef
      have hqv : q = (b :: t).getLastD 0 := by
        rw [hqdef]
        show (n :: b :: t : List Nat).getLastD 0 = (b :: t).getLastD 0
        rw [List.getLastD_cons, glD_irrel (b :: t) hys n 0]
      have hqmem : q ∈ (b :: t) := hqv ▸ glD_mem (b :: t) hys 0
      have hqn : q ≠ n := fun he => hnys (he ▸ hqmem)
      refine ⟨?_, ?_, hndnew, hposnew⟩
      · show (b :: t : List Nat).getLastD 0
          = if (b :: t : List Nat) = [] then ([] : List Nat).getLastD 0 else f.sub
        rw [if_neg hys]
        have := hr.1
        rwa [List.nil_append, List.getLastD_cons, glD_irrel (b :: t) hys n 0] at this
      · show chainLinks _ ((b :: t : List Nat).headD 0) (b :: t)
        rw [List.headD_cons]
        apply cl_change_last h _ (b :: t) 0 n b
          (List.nodup_cons.mp hnd.of_append_right).2
        · intro x hx hxne
          have hxn : x ≠ n := fun he => hnys (he ▸ hx)
          have hxq : x ≠ q := hqv ▸ hxne
          rw [upd_other _ _ _ _ hxn, upd_other _ _ _ _ hxq]
        · rw [← hqv, upd_other _ _ _ _ hqn, upd_same]
          have hn1 := horig.1
          rwa [show ((b :: t : List Nat).headD n) = b from rfl] at hn1
        · exact horig.2
  | cons a xt =>
    have hxs : (a :: xt : List Nat) ≠ [] := by simp
    set q := (a :: xt).getLastD (((a :: xt) ++ n :: ys).getLastD 0) with hqdef
    have hqv : q = (a :: xt).getLastD 0 := by
      rw [hqdef]; exact glD_irrel (a :: xt) hxs _ 0
    have hqmem : q ∈ (a :: xt) := hqv ▸ glD_mem (a :: xt) hxs 0
    have hqn : q ≠ n := fun he => hnxs (he ▸ hqmem)
    have horig := hr.2.1
    rw [cl_append] at horig
    have hhdo : ((a :: xt) ++ n :: ys).headD 0 = a := rfl
    have hx1 : chainLinks h n (a :: xt) := by
      have := horig.1
      rwa [show ((n :: ys).headD (((a :: xt) ++ n :: ys).headD 0)) = n from rfl] at this
    have hx2 : h n = ys.headD a ∧ chainLinks h a ys := by
      have := horig.2
      rw [hhdo] at this
      exact this
    cases ys with
    | nil =>
      -- n was the tail (not sole): tail slot moves to the predecessor q
      refine ⟨?_, ?_, hndnew, hposnew⟩
      · show ((a :: xt) ++ [] : List Nat).getLastD 0
          = if ([] : List Nat) = [] then (a :: xt : List Nat).getLastD 0 else f.sub
        rw [if_pos rfl, List.append_nil]
      · show chainLinks _ (((a :: xt) ++ [] : List Nat).headD 0) ((a :: xt) ++ [])
        rw [List.append_nil, List.headD_cons]
        apply cl_change_last h _ (a :: xt) 0 n a hnd.of_append_left
        · intro x hx hxne
          have hxn : x ≠ n := fun he => hnxs (he ▸ hx)
          have hxq : x ≠ q := hqv ▸ hxne
          rw [upd_other _ _ _ _ hxn, upd_other _ _ _ _ hxq]
        · rw [← hqv, upd_other _ _ _ _ hqn, upd_same]
          exact hx2.1
        · exact hx1
    | cons b yt =>
      -- n was interior: tail slot unchanged, predecessor q skips to b
      have hys : (b :: yt : List Nat) ≠ [] := by simp
      have hqys : q ∉ (b :: yt) := fun hm =>
        List.disjoint_of_nodup_append hnd hqmem (List.mem_cons_of_mem n hm)
      refine ⟨?_, ?_, hndnew, hposnew⟩
      · show ((a :: xt) ++ b :: yt : List Nat).getLastD 0
          = if (b :: yt : List Nat) = [] then (a :: xt : List Nat).getLastD 0 else f.sub
        rw [if_neg hys, glD_app _ _ 0 hys]
        have := hr.1
        rwa [glD_app _ _ 0 (by simp), List.getLastD_cons, glD_irrel (b :: yt) hys n 0]
          at this
      · rw [cl_append]
        constructor
        · show chainLinks _ ((b :: yt : List Nat).headD
            (((a :: xt) ++ b :: yt : List Nat).headD 0)) (a :: xt)
          rw [List.headD_cons]
          apply cl_change_last h _ (a :: xt) 0 n b hnd.of_append_left
          · intro x hx hxne
            have hxn : x ≠ n := fun he => hnxs (he ▸ hx)
            have hxq : x ≠ q := hqv ▸ hxne
            rw [upd_other _ _ _ _ hxn, upd_other _ _ _ _ hxq]
          · rw [← hqv, upd_other _ _ _ _ hqn, upd_same]
            have := hx2.1
            rwa [show ((b :: yt : List Nat).headD a) = b from rfl] at this
          · exact hx1
        · show chainLinks _ (((a :: xt) ++ b :: yt : List Nat).headD 0) (b :: yt)
          have hframe : ∀ x ∈ (b :: yt),
              (upd (upd h q (h n)) n n) x = h x := by
            intro x hx
            have hxn : x ≠ n := fun he => hnys (he ▸ hx)
            have hxq : x ≠ q := fun he => hqys (he ▸ hx)
            rw [upd_other _ _ _ _ hxn, upd_other _ _ _ _ hxq]
          rw [cl_frame h _ _ (b :: yt) hframe]
          rw [show (((a :: xt) ++ b :: yt : List Nat).headD 0) = a from rfl]
          exact hx2.2

/-- The departed node's sibling link is reset (self-loop terminal state). -/
theorem remove_reset (h : Heap) (q n : Nat) :
    (upd (upd h q (h n)) n n) n = n := upd_same _ n n

/-- `depart`'s runtime tail-slot computation (compare against the node, then
`has_no_sib`) agrees with the three spec cases (sole child / tail / interior),
packaged as `if ys = [] then xs.getLastD 0 else f.sub`. -/
theorem depart_sub_eq (h : Heap) (f : Forest) (xs ys : List Nat) (n : Nat)
    (hr : reprF h f (xs ++ n :: ys)) :
    (if f.sub = n then
       (if h n = n then 0 else xs.getLastD ((xs ++ n :: ys).getLastD 0))
     else f.sub)
      = if ys = [] then xs.getLastD 0 else f.sub := by
  have hnd := hr.2.2.1
  have hnxs : n ∉ xs := fun hm =>
    List.disjoint_of_nodup_append hnd hm (by simp)
  cases ys with
  | cons b yt =>
    have hys : (b :: yt : List Nat) ≠ [] := by simp
    have hsub : f.sub ∈ (b :: yt) := by
      have := hr.1
      rw [glD_app _ _ 0 (by simp), List.getLastD_cons, glD_irrel _ hys n 0] at this
      exact this ▸ glD_mem _ hys 0
    have hfn : f.sub ≠ n := fun he =>
      (List.nodup_cons.mp hnd.of_append_right).1 (he ▸ hsub)
    rw [if_neg hfn, if_neg hys]
  | nil =>
    have hfn : f.sub = n := by
      have := hr.1
      rw [List.getLastD_concat] at this
      exact this.symm
    have hlink : h n = xs.headD n := by
      have horig := hr.2.1
      rw [cl_append] at horig
      have h2 := horig.2.1
      rw [show (([] : List Nat).headD ((xs ++ [n]).headD 0)) = (xs ++ [n]).headD 0
        from rfl] at h2
      rwa [hdD_app xs [n] 0, List.headD_cons] at h2
    rw [if_pos hfn, if_pos rfl]
    cases xs with
    | nil =>
      rw [if_pos (by rw [hlink]; rfl)]
      rfl
    | cons a xt =>
      have hna : n ≠ a := fun he => hnxs (he ▸ List.mem_cons_self a xt)
      rw [if_neg (by rw [hlink]; exact fun he => hna he.symm)]
      rw [glD_app (a :: xt) [n] 0 (by simp), List.getLastD_cons, List.getLastD_cons]

/-! ## Forest operation contracts -/

theorem push_front_repr (h : Heap) (f : Forest) (c : List Nat) (r : Nat)
    (hr : reprF h f c) (hfr : r ∉ c) (hr0 : r ≠ 0) (hroot : h r = r) :
    reprF (push_front h f r).1 (push_front h f r).2 (r :: c) := by
  by_cases hc : c = []
  · subst hc
    have h0 : f.sub = 0 := (reprF_zero_iff h f [] hr).mpr rfl
    rw [show push_front h f r = (h, ⟨r⟩) from by rw [push_front, if_pos h0]]
    exact ⟨rfl, ⟨hroot, trivial⟩, List.nodup_singleton r, by simpa using (Ne.symm hr0)⟩
  · have h0 : f.sub ≠ 0 := fun he => hc ((reprF_zero_iff h f c hr).mp he)
    have hunf : push_front h f r = (upd (upd h r (c.headD 0)) (c.getLastD 0) r, f) := by
      rw [push_front, if_neg h0]
      show (upd (upd h r (h f.sub)) f.sub r, f) = _
      rw [reprF_head_link h f c hr hc, hr.1]
    rw [hunf]
    exact splice_insert h f [] c r hr hc hfr hr0

theorem push_back_repr (h : Heap) (f : Forest) (c : List Nat) (r : Nat)
    (hr : reprF h f c) (hfr : r ∉ c) (hr0 : r ≠ 0) (hroot : h r = r) :
    reprF (push_back h f r).1 (push_back h f r).2 (c ++ [r]) := by
  by_cases hc : c = []
  · subst hc
    have h0 : f.sub = 0 := (reprF_zero_iff h f [] hr).mpr rfl
    rw [show push_back h f r = (h, ⟨r⟩) from by
      rw [push_back, if_neg (by simpa using h0)]]
    exact ⟨rfl, ⟨hroot, trivial⟩, List.nodup_singleton r, by simpa using (Ne.symm hr0)⟩
  · have h0 : f.sub ≠ 0 := fun he => hc ((reprF_zero_iff h f c hr).mp he)
    have hunf : push_back h f r = (upd (upd h r (c.headD 0)) f.sub r, ⟨r⟩) := by
      rw [push_back, if_pos h0]
      show (upd (upd h r (h f.sub)) f.sub r, (⟨r⟩ : Forest)) = _
      rw [reprF_head_link h f c hr hc]
    rw [hunf]
    exact splice_end h f c r hr hc hfr hr0

theorem pop_front_repr (h : Heap) (f : Forest) (a : Nat) (t : List Nat)
    (hr : reprF h f (a :: t)) :
    (pop_front h f).2.2 = some a ∧
    reprF (pop_front h f).1 (pop_front h f).2.1 t ∧
    (pop_front h f).1 a = a := by
  have h0 : f.sub ≠ 0 := fun he => by
    have := (reprF_zero_iff h f (a :: t) hr).mp he
    simp at this
  have hhead : h f.sub = a := by
    have := reprF_head_link h f (a :: t) hr (by simp)
    rwa [List.headD_cons] at this
  cases t with
  | nil =>
    have hsub : f.sub = a := by
      have := hr.1
      rw [List.getLastD_cons, List.getLastD_nil] at this
      exact this.symm
    have hone : f.has_only_one_child h = true := by
      rw [Forest.has_only_one_child, Forest.head, Forest.tail, hhead, hsub]
      exact beq_self_eq_true a
    have hunf : pop_front h f = (upd h a a, ⟨0⟩, some a) := by
      rw [pop_front, if_neg h0]
      show (upd (if f.has_only_one_child h then (h, (⟨0⟩ : Forest))
        else (upd h f.tail (f.new_head h), f)).1 (h f.sub) (h f.sub),
        (if f.has_only_one_child h then (h, (⟨0⟩ : Forest))
        else (upd h f.tail (f.new_head h), f)).2, some (h f.sub)) = _
      rw [hone, hhead]
      simp
    rw [hunf]
    refine ⟨rfl, ⟨rfl, trivial, List.nodup_nil, by simp⟩, upd_same h a a⟩
  | cons b yt =>
    have hsubt : f.sub = (b :: yt).getLastD 0 := by
      have := hr.1
      rw [List.getLastD_cons, glD_irrel (b :: yt) (by simp) a 0] at this
      exact this.symm
    have hsubmem : f.sub ∈ (b :: yt) := hsubt ▸ glD_mem (b :: yt) (by simp) 0
    have hsubne : f.sub ≠ a := fun he =>
      (List.nodup_cons.mp hr.2.2.1).1 (he ▸ hsubmem)
    have hone : f.has_only_one_child h = false := by
      rw [Forest.has_only_one_child, Forest.head, Forest.tail, hhead]
      exact beq_eq_false_iff_ne.mpr (fun he => hsubne he.symm)
    have hunf : pop_front h f
        = (upd (upd h f.sub (h a)) a a, f, some a) := by
      rw [pop_front, if_neg h0]
      show (upd (if f.has_only_one_child h then (h, (⟨0⟩ : Forest))
        else (upd h f.tail (f.new_head h), f)).1 (h f.sub) (h f.sub),
        (if f.has_only_one_child h then (h, (⟨0⟩ : Forest))
        else (upd h f.tail (f.new_head h), f)).2, some (h f.sub)) = _
      rw [hone, hhead]
      show (upd (upd h f.tail (f.new_head h)) a a, f, some a) = _
      rw [Forest.new_head, Forest.head, Forest.tail, hhead]
    rw [hunf]
    refine ⟨rfl, ?_, ?_⟩
    · have := remove_repr h f [] (b :: yt) a hr
      rw [if_neg (by simp : ¬(b :: yt : List Nat) = [])] at this
      have heq : ([] : List Nat).getLastD (([] ++ a :: b :: yt).getLastD 0) = f.sub := by
        show ((a :: b :: yt : List Nat).getLastD 0) = f.sub
        exact hr.1
      rw [heq] at this
      exact this
    · exact upd_same _ a a

/-- Splicing two disjoint cycles: after the two sibling-link writes, each of
the two chains closes at the other chain's head. -/
theorem merge_links (h : Heap) (f g : Forest) (la lb : List Nat)
    (hra : reprF h f la) (hrb : reprF h g lb) (hla : la ≠ []) (hlb : lb ≠ [])
    (hdisj : ∀ x ∈ la, x ∉ lb) :
    chainLinks (upd (upd h g.sub (h f.sub)) f.sub (h g.sub)) (lb.headD 0) la ∧
    chainLinks (upd (upd h g.sub (h f.sub)) f.sub (h g.sub)) (la.headD 0) lb := by
  have hfmem : f.sub ∈ la := reprF_sub_mem h f la hra hla
  have hgmem : g.sub ∈ lb := reprF_sub_mem h g lb hrb hlb
  have hfg : f.sub ≠ g.sub := fun he => hdisj f.sub hfmem (he ▸ hgmem)
  have hgla : g.sub ∉ la := fun hm => hdisj g.sub hm hgmem
  have hflb : f.sub ∉ lb := hdisj f.sub hfmem
  constructor
  · apply cl_change_last h _ la 0 (la.headD 0) (lb.headD 0) hra.2.2.1
    · intro x hx hxne
      have hxf : x ≠ f.sub := fun he => hxne (he.trans hra.1.symm)
      have hxg : x ≠ g.sub := fun he => hgla (he ▸ hx)
      rw [upd_other _ _ _ _ hxf, upd_other _ _ _ _ hxg]
    · rw [hra.1, upd_same]
      exact reprF_head_link h g lb hrb hlb
    · exact hra.2.1
  · apply cl_change_last h _ lb 0 (lb.headD 0) (la.headD 0) hrb.2.2.1
    · intro x hx hxne
      have hxg : x ≠ g.sub := fun he => hxne (he.trans hrb.1.symm)
      have hxf : x ≠ f.sub := fun he => hflb (he ▸ hx)
      rw [upd_other _ _ _ _ hxf, upd_other _ _ _ _ hxg]
    · rw [hrb.1, upd_other _ _ _ _ (fun he => hfg he.symm), upd_same]
      exact reprF_head_link h f la hra hla
    · exact hrb.2.1

theorem append_repr (h : Heap) (f g : Forest) (la lb : List Nat)
    (hra : reprF h f la) (hrb : reprF h g lb)
    (hdisj : ∀ x ∈ la, x ∉ lb) :
    reprF (append h f g).1 (append h f g).2.1 (la ++ lb) ∧
    (append h f g).2.2.sub = 0 ∧
    (∀ x, x ≠ f.sub → x ≠ g.sub → (append h f g).1 x = h x) := by
  by_cases hlb : lb = []
  · subst hlb
    have hg0 : g.sub = 0 := (reprF_zero_iff h g [] hrb).mpr rfl
    have hunf : append h f g = (h, f, g) := by
      rw [append, if_neg (by simpa using hg0)]
    rw [hunf]
    exact ⟨by rw [List.append_nil]; exact hra, hg0, fun x _ _ => rfl⟩
  · have hg0 : g.sub ≠ 0 := fun he => hlb ((reprF_zero_iff h g lb hrb).mp he)
    by_cases hla : la = []
    · subst hla
      have hf0 : f.sub = 0 := (reprF_zero_iff h f [] hra).mpr rfl
      have hunf : append h f g = (h, ⟨g.tail⟩, ⟨0⟩) := by
        rw [append, if_pos hg0, if_neg (by simpa using hf0)]
      rw [hunf]
      exact ⟨hrb, rfl, fun x _ _ => rfl⟩
    · have hf0 : f.sub ≠ 0 := fun he => hla ((reprF_zero_iff h f la hra).mp he)
      have hunf : append h f g
          = (upd (upd h g.sub (h f.sub)) f.sub (h g.sub), ⟨g.sub⟩, ⟨0⟩) := by
        rw [append, if_pos hg0, if_pos hf0]
        rfl
      rw [hunf]
      have hm := merge_links h f g la lb hra hrb hla hlb hdisj
      refine ⟨⟨?_, ?_, ?_, ?_⟩, rfl, fun x hxf hxg => by
        show upd (upd h g.sub (h f.sub)) f.sub (h g.sub) x = h x
        rw [upd_other _ _ _ _ hxf, upd_other _ _ _ _ hxg]⟩
      · rw [glD_app la lb 0 hlb]
        exact hrb.1
      · rw [cl_append]
        constructor
        · rw [hdD_irrel lb hlb ((la ++ lb).headD 0) 0]
          exact hm.1
        · rw [hdD_app la lb 0, hdD_irrel la hla (lb.headD 0) 0]
          exact hm.2
      · exact hra.2.2.1.append hrb.2.2.1 hdisj
      · intro hmem
        rcases List.mem_append.mp hmem with hx | hx
        · exact hra.2.2.2 hx
        · exact hrb.2.2.2 hx

theorem prepend_repr (h : Heap) (f g : Forest) (la lb : List Nat)
    (hra : reprF h f la) (hrb : reprF h g lb)
    (hdisj : ∀ x ∈ la, x ∉ lb) :
    reprF (prepend h f g).1 (prepend h f g).2.1 (lb ++ la) ∧
    (prepend h f g).2.2.sub = 0 ∧
    (∀ x, x ≠ f.sub → x ≠ g.sub → (prepend h f g).1 x = h x) := by
  by_cases hlb : lb = []
  · subst hlb
    have hg0 : g.sub = 0 := (reprF_zero_iff h g [] hrb).mpr rfl
    have hunf : prepend h f g = (h, f, g) := by
      rw [prepend, if_neg (by simpa using hg0)]
    rw [hunf]
    exact ⟨hra, hg0, fun x _ _ => rfl⟩
  · have hg0 : g.sub ≠ 0 := fun he => hlb ((reprF_zero_iff h g lb hrb).mp he)
    by_cases hla : la = []
    · subst hla
      have hf0 : f.sub = 0 := (reprF_zero_iff h f [] hra).mpr rfl
      have hunf : prepend h f g = (h, ⟨g.tail⟩, ⟨0⟩) := by
        rw [prepend, if_pos hg0, if_pos hf0]
      rw [hunf]
      exact ⟨by rw [List.append_nil]; exact hrb, rfl, fun x _ _ => rfl⟩
    · have hf0 : f.sub ≠ 0 := fun he => hla ((reprF_zero_iff h f la hra).mp he)
      have hunf : prepend h f g
          = (upd (upd h g.sub (h f.sub)) f.sub (h g.sub), f, ⟨0⟩) := by
        rw [prepend, if_pos hg0, if_neg hf0]
        rfl
      rw [hunf]
      have hm := merge_links h f g la lb hra hrb hla hlb hdisj
      refine ⟨⟨?_, ?_, ?_, ?_⟩, rfl, fun x hxf hxg => by
        show upd (upd h g.sub (h f.sub)) f.sub (h g.sub) x = h x
        rw [upd_other _ _ _ _ hxf, upd_other _ _ _ _ hxg]⟩
      · rw [glD_app lb la 0 hla]
        exact hra.1
      · rw [cl_append]
        constructor
        · rw [hdD_irrel la hla ((lb ++ la).headD 0) 0]
          exact hm.2
        · rw [hdD_app lb la 0, hdD_irrel lb hlb (la.headD 0) 0]
          exact hm.1
      · exact hrb.2.2.1.append hra.2.2.1 (fun x hxb hxa => hdisj x hxa hxb)
      · intro hmem
        rcases List.mem_append.mp hmem with hx | hx
        · exact hrb.2.2.2 hx
        · exact hra.2.2.2 hx

/-! ## Iterator lemmas -/

/-- Iterate `Iter.next` `k` times, keeping only the state. -/
def iterSteps (h : Heap) : Iter → Nat → Iter
  | it, 0 => it
  | it, k + 1 => iterSteps h (Iter.next h it).2 k

theorem iter_next_unfold (h : Heap) (b t n : Nat) :
    Iter.next h ⟨b, t, n⟩
      = if b = 0 then (none, ⟨b, t, n⟩)
        else (some b, ⟨if b = t then 0 else h b, t, n - 1⟩) := rfl

/-- One forward step of a mid-chain iterator. -/
theorem iter_next_mid (h : Heap) (f : Forest) (c u w : List Nat) (b : Nat)
    (hr : reprF h f c) (hc : c = u ++ b :: w) (n : Nat) :
    Iter.next h ⟨(b :: w).headD 0, f.sub, n⟩ = (some b, ⟨w.headD 0, f.sub, n - 1⟩) := by
  have hb : b ∈ c := hc ▸ List.mem_append_right u (by simp)
  have hb0 : b ≠ 0 := fun he => hr.2.2.2 (he ▸ hb)
  rw [List.headD_cons, iter_next_unfold, if_neg hb0]
  cases w with
  | nil =>
    have hsub : f.sub = b := by
      have := hr.1
      rw [hc, List.getLastD_concat] at this
      exact this.symm
    rw [if_pos hsub.symm]
    rfl
  | cons d wt =>
    have hnd : c.Nodup := hr.2.2.1
    have hsubv : f.sub = (d :: wt).getLastD 0 := by
      have := hr.1
      rw [hc, glD_app u _ 0 (by simp), List.getLastD_cons,
        glD_irrel (d :: wt) (by simp) b 0] at this
      exact this.symm
    have hsubmem : f.sub ∈ (d :: wt) := hsubv ▸ glD_mem (d :: wt) (by simp) 0
    have hbsub : b ≠ f.sub := by
      intro he
      have : (b :: d :: wt).Nodup := (hc ▸ hnd).of_append_right
      exact (List.nodup_cons.mp this).1 (he ▸ hsubmem)
    rw [if_neg hbsub]
    have hlink : h b = d := by
      have horig := hr.2.1
      rw [hc, cl_append] at horig
      have := horig.2.1
      rwa [show ((d :: wt).headD ((u ++ b :: d :: wt).headD 0)) = d from rfl] at this
    rw [hlink]
    rfl

/-- The iterator yields exactly the remaining suffix `w` of the chain, with
any fuel at least `w.length`, and then stops. -/
theorem iter_yields (h : Heap) (f : Forest) (c : List Nat) (hr : reprF h f c) :
    ∀ w u j n, c = u ++ w →
    iterToList h ⟨w.headD 0, f.sub, n⟩ (w.length + j) = w := by
  intro w
  induction w with
  | nil =>
    intro u j n hc
    cases j with
    | zero => rfl
    | succ j' =>
      show iterToList h ⟨(0 : Nat), f.sub, n⟩ (j' + 1) = []
      rw [iterToList, show Iter.next h ⟨(0 : Nat), f.sub, n⟩
        = (none, ⟨(0 : Nat), f.sub, n⟩) from by rw [Iter.next, if_pos rfl]]
  | cons b w ih =>
    intro u j n hc
    rw [show (b :: w).length + j = w.length + j + 1 from by simp [List.length_cons]; omega]
    rw [iterToList, iter_next_mid h f c u w b hr hc n]
    show b :: iterToList h ⟨w.headD 0, f.sub, n - 1⟩ (w.length + j) = b :: w
    rw [ih (u ++ [b]) j (n - 1) (by rw [hc, List.append_assoc]; rfl)]

/-- The iterator's state after `k` steps: head at the `k`-th remaining node,
`len` decremented by exactly `k`. -/
theorem iter_states (h : Heap) (f : Forest) (c : List Nat) (hr : reprF h f c) :
    ∀ w u k n, c = u ++ w → k ≤ w.length →
    iterSteps h ⟨w.headD 0, f.sub, n⟩ k = ⟨(w.drop k).headD 0, f.sub, n - k⟩ := by
  intro w
  induction w with
  | nil =>
    intro u k n hc hk
    have hk0 : k = 0 := Nat.le_zero.mp hk
    subst hk0
    rfl
  | cons b w ih =>
    intro u k n hc hk
    cases k with
    | zero => rfl
    | succ k' =>
      show iterSteps h (Iter.next h ⟨(b :: w).headD 0, f.sub, n⟩).2 k' = _
      rw [iter_next_mid h f c u w b hr hc n]
      show iterSteps h ⟨w.headD 0, f.sub, n - 1⟩ k' = _
      rw [ih (u ++ [b]) k' (n - 1) (by rw [hc, List.append_assoc]; rfl)
        (Nat.le_of_succ_le_succ hk)]
      show (⟨(w.drop k').headD 0, f.sub, n - 1 - k'⟩ : Iter)
        = ⟨((b :: w).drop (k' + 1)).headD 0, f.sub, n - (k' + 1)⟩
      rw [List.drop_succ_cons, Nat.sub_sub, Nat.add_comm 1 k']

/-- `children` on a represented forest yields the chain exactly. -/
theorem children_list (h : Heap) (f : Forest) (c : List Nat) (hr : reprF h f c) :
    iterToList h (children h f c.length) c.length = c := by
  by_cases hc : c = []
  · subst hc
    rfl
  · have h0 : f.sub ≠ 0 := fun he => hc ((reprF_zero_iff h f c hr).mp he)
    have hch : children h f c.length = ⟨c.headD 0, f.sub, c.length⟩ := by
      rw [children, if_neg h0]
      show (⟨h f.sub, f.sub, c.length⟩ : Iter) = _
      rw [reprF_head_link h f c hr hc]
    rw [hch]
    have := iter_yields h f c hr c [] 0 c.length rfl
    rwa [Nat.add_zero] at this

/-! ## The cursor-session invariant

`done` is the list of nodes yielded so far (a prefix of the starting chain
`c0`), `rest` the unvisited suffix, `P` the processed region of the current
chain (survivors of `done` interleaved with inserted roots), `dets` the
departed roots and `ins` the inserted roots. -/

structure CommonInv (c0 : List Nat) (st : Sess)
    (done rest P dets ins : List Nat) : Prop where
  hc0nd : c0.Nodup
  hc0pos : 0 ∉ c0
  hsplit : c0 = done ++ rest
  hrepr : reprF st.h ⟨st.s⟩ (P ++ rest)
  hchild : st.it.child = c0.getLastD 0
  hmem : ∀ x, x ∈ P ↔ ((x ∈ done ∧ x ∉ dets) ∨ x ∈ ins)
  hlen : P.length + dets.length = done.length + ins.length
  hinsf : ∀ x ∈ ins, x ∉ c0
  hdets : ∀ x ∈ dets, x ∈ done
  hinsnd : ins.Nodup
  hdetsnd : dets.Nodup

/-- The session invariant.  `stopped`: the cursor yields nothing any more
(empty forest, or the full-cycle termination guard fires) and its state no
longer changes.  `going`: mid-traversal with the computed predecessor agreeing
with the true chain predecessor of the next node.  `pend`: mid-traversal just
after an `insert_after`, whose inserted node sits between the cursor's
current node and the captured `next`; the predecessor cache is stale, which
is sound only while the following handle performs no prev-using mutation
(tracked by the `true` flag). -/
inductive SessInv (c0 : List Nat) :
    Bool → Sess → List Nat → List Nat → List Nat → List Nat → List Nat → Prop
  | stopped (fp : Bool) (st : Sess) (done P dets ins : List Nat)
      (hcom : CommonInv c0 st done [] P dets ins)
      (hstop : st.it.child = 0 ∨ (st.it.curr = st.it.child ∧ st.it.curr ≠ 0)) :
      SessInv c0 fp st done [] P dets ins
  | going (fp : Bool) (st : Sess) (done rest P dets ins : List Nat)
      (hcom : CommonInv c0 st done rest P dets ins)
      (hne : rest ≠ [])
      (hcurr : st.it.curr = done.getLastD 0)
      (hnext : st.it.next = rest.headD 0)
      (hprev : computedPrev st.h st.it = P.getLastD (rest.getLastD 0)) :
      SessInv c0 fp st done rest P dets ins
  | pend (st : Sess) (done rest P P0 dets ins : List Nat) (r : Nat)
      (hP : P = P0 ++ [done.getLastD 0, r])
      (hcom : CommonInv c0 st done rest P dets ins)
      (hne : rest ≠ []) (hdne : done ≠ [])
      (hcurr : st.it.curr = done.getLastD 0)
      (hnext : st.it.next = rest.headD 0)
      (hprevne : st.h st.it.prev ≠ st.it.next)
      (hrins : r ∈ ins) :
      SessInv c0 true st done rest P dets ins

/-! ### Helper lemmas for the invariant -/

theorem chain_link_at (h : Heap) (f : Forest) (Pp w : List Nat) (b : Nat)
    (hr : reprF h f (Pp ++ b :: w)) (hw : w ≠ []) : h b = w.headD 0 := by
  have horig := hr.2.1
  rw [cl_append] at horig
  have := horig.2.1
  rw [hdD_irrel w hw ((Pp ++ b :: w).headD 0) 0] at this
  exact this

theorem pred_link (h : Heap) (f : Forest) (Pp w : List Nat)
    (hr : reprF h f (Pp ++ w)) (hw : w ≠ []) :
    h (Pp.getLastD (w.getLastD 0)) = w.headD 0 := by
  cases hp : Pp with
  | nil =>
    show h (w.getLastD 0) = w.headD 0
    have := cl_last h ((Pp ++ w).headD 0) (Pp ++ w) (by simp [hw]) hr.2.1
    rw [hp] at this
    rw [show (([] ++ w : List Nat)).getLastD 0 = w.getLastD 0 from rfl] at this
    rw [this]
    rfl
  | cons a t =>
    have horig := hr.2.1
    rw [hp, cl_append] at horig
    have := cl_last h (w.headD ((a :: t ++ w).headD 0)) (a :: t) (by simp) horig.1
    rw [hdD_irrel w hw ((a :: t ++ w).headD 0) 0] at this
    rwa [glD_irrel (a :: t) (by simp) (w.getLastD 0) 0]

/-- The membership bookkeeping after a plain yield. -/
theorem hmem_adv (P done dets ins : List Nat) (u : Nat)
    (hmem : ∀ x, x ∈ P ↔ ((x ∈ done ∧ x ∉ dets) ∨ x ∈ ins))
    (hudets : u ∉ dets) :
    ∀ x, x ∈ P ++ [u] ↔ ((x ∈ done ++ [u] ∧ x ∉ dets) ∨ x ∈ ins) := by
  intro x
  have h1 := hmem x
  simp only [List.mem_append, List.mem_cons, List.not_mem_nil, or_false]
  by_cases hxu : x = u
  · subst hxu
    tauto
  · tauto

/-- The membership bookkeeping after a yield plus an insertion (`y` and `z`
are the yielded and inserted roots, in either chain order). -/
theorem hmem_ins (P done dets ins : List Nat) (u r y z : Nat)
    (hmem : ∀ x, x ∈ P ↔ ((x ∈ done ∧ x ∉ dets) ∨ x ∈ ins))
    (hudets : u ∉ dets)
    (hyz : ∀ x, (x = y ∨ x = z) ↔ (x = u ∨ x = r)) :
    ∀ x, x ∈ P ++ [y, z] ↔ ((x ∈ done ++ [u] ∧ x ∉ dets) ∨ x ∈ ins ++ [r]) := by
  intro x
  have h1 := hmem x
  have h2 := hyz x
  simp only [List.mem_append, List.mem_cons, List.not_mem_nil, or_false]
  by_cases hxu : x = u
  · subst hxu
    tauto
  · by_cases hxr : x = r
    · subst hxr
      tauto
    · tauto

/-- The membership bookkeeping after a yield that departs. -/
theorem hmem_det (P done dets ins : List Nat) (u : Nat)
    (hmem : ∀ x, x ∈ P ↔ ((x ∈ done ∧ x ∉ dets) ∨ x ∈ ins))
    (huP : u ∉ P) (huins : u ∉ ins) :
    ∀ x, x ∈ P ↔ ((x ∈ done ++ [u] ∧ x ∉ dets ++ [u]) ∨ x ∈ ins) := by
  intro x
  have h1 := hmem x
  simp only [List.mem_append, List.mem_cons, List.not_mem_nil, or_false]
  by_cases hxu : x = u
  · subst hxu
    tauto
  · tauto

/-! ### The cursor's advance, characterized -/

theorem ontoNext_going (h : Heap) (it : OntoIter)
    (hchild : it.child ≠ 0)
    (hnoret : it.curr = 0 ∨ (it.curr ≠ it.child ∧ it.curr ≠ it.next))
    (hnext0 : it.next ≠ 0) :
    ontoNext h it = (some ⟨it.next, computedPrev h it⟩,
      ⟨h it.next, it.next, computedPrev h it, it.child⟩) := by
  have hng : ¬(it.curr ≠ 0 ∧ (it.curr = it.child ∨ it.curr = it.next)) := by
    rintro ⟨hc0, hor⟩
    rcases hnoret with h0 | ⟨h1, h2⟩
    · exact hc0 h0
    · rcases hor with he | he
      · exact h1 he
      · exact h2 he
  rw [ontoNext, if_pos hchild, if_neg hng, if_pos hnext0]

theorem ontoNext_stopped (h : Heap) (it : OntoIter)
    (hstop : it.child = 0 ∨ (it.curr = it.child ∧ it.curr ≠ 0)) :
    ontoNext h it = (none, it) := by
  rcases hstop with h0 | ⟨hc, hne⟩
  · rw [ontoNext, if_neg (by simpa using h0)]
  · have hch : it.child ≠ 0 := fun he => hne (hc.trans he)
    rw [ontoNext, if_pos hch, if_pos ⟨hne, Or.inl hc⟩]

theorem doMove_stopped (st : Sess) (m : Move)
    (hstop : st.it.child = 0 ∨ (st.it.curr = st.it.child ∧ st.it.curr ≠ 0)) :
    doMove st m = ⟨st, none, none, none⟩ := by
  rw [doMove, ontoNext_stopped st.h st.it hstop]

theorem doMove_adv (st : Sess) (sn : Subnode) (it2 : OntoIter)
    (hadv : ontoNext st.h st.it = (some sn, it2)) :
    doMove st Move.adv = ⟨⟨st.h, st.s, it2⟩, some sn.node, none, none⟩ := by
  rw [doMove, hadv]

theorem doMove_bef (st : Sess) (sn : Subnode) (it2 : OntoIter) (r : Nat)
    (hadv : ontoNext st.h st.it = (some sn, it2)) :
    doMove st (Move.bef r) = ⟨⟨(insert_before st.h st.s sn r).1,
      (insert_before st.h st.s sn r).2, it2⟩, some sn.node, none, some r⟩ := by
  rw [doMove, hadv]

theorem doMove_aft (st : Sess) (sn : Subnode) (it2 : OntoIter) (r : Nat)
    (hadv : ontoNext st.h st.it = (some sn, it2)) :
    doMove st (Move.aft r) = ⟨⟨(insert_after st.h st.s sn r).1,
      (insert_after st.h st.s sn r).2, it2⟩, some sn.node, none, some r⟩ := by
  rw [doMove, hadv]

theorem doMove_det (st : Sess) (sn : Subnode) (it2 : OntoIter)
    (hadv : ontoNext st.h st.it = (some sn, it2)) :
    doMove st Move.det = ⟨⟨(depart st.h st.s sn).1,
      (depart st.h st.s sn).2.1, it2⟩, some sn.node,
      some (depart st.h st.s sn).2.2, none⟩ := by
  rw [doMove, hadv]

/-! ### CommonInv consequences -/

theorem CommonInv.done_c0 {c0 : List Nat} {st : Sess}
    {done rest P dets ins : List Nat}
    (hcom : CommonInv c0 st done rest P dets ins) :
    ∀ x ∈ done, x ∈ c0 := fun x hx =>
  hcom.hsplit ▸ List.mem_append_left rest hx

theorem CommonInv.rest_c0 {c0 : List Nat} {st : Sess}
    {done rest P dets ins : List Nat}
    (hcom : CommonInv c0 st done rest P dets ins) :
    ∀ x ∈ rest, x ∈ c0 := fun x hx =>
  hcom.hsplit ▸ List.mem_append_right done hx

theorem CommonInv.done_rest {c0 : List Nat} {st : Sess}
    {done rest P dets ins : List Nat}
    (hcom : CommonInv c0 st done rest P dets ins) :
    ∀ x ∈ done, x ∉ rest := fun x hx hx' =>
  List.disjoint_of_nodup_append (hcom.hsplit ▸ hcom.hc0nd) hx hx'

theorem CommonInv.fresh_chain {c0 : List Nat} {st : Sess}
    {done rest P dets ins : List Nat}
    (hcom : CommonInv c0 st done rest P dets ins)
    (r : Nat) (hrc0 : r ∉ c0) (hrins : r ∉ ins) : r ∉ P ++ rest := by
  intro hmem
  rcases List.mem_append.mp hmem with hx | hx
  · rcases (hcom.hmem r).mp hx with ⟨hd, _⟩ | hi
    · exact hrc0 (hcom.done_c0 r hd)
    · exact hrins hi
  · exact hrc0 (hcom.rest_c0 r hx)

theorem CommonInv.rest_pos {c0 : List Nat} {st : Sess}
    {done rest P dets ins : List Nat}
    (hcom : CommonInv c0 st done rest P dets ins) :
    ∀ x ∈ rest, x ≠ 0 := fun x hx he =>
  hcom.hc0pos (he ▸ hcom.rest_c0 x hx)

theorem computedPrev_eq_curr (h : Heap) (nx cu pv ch : Nat)
    (hcond : cu ≠ 0 ∧ h pv ≠ nx) :
    computedPrev h ⟨nx, cu, pv, ch⟩ = cu := by
  rw [computedPrev, if_pos]
  exact hcond

theorem computedPrev_eq_prev (h : Heap) (nx cu pv ch : Nat)
    (hcond : ¬(cu ≠ 0 ∧ h pv ≠ nx)) :
    computedPrev h ⟨nx, cu, pv, ch⟩ = pv := by
  rw [computedPrev, if_neg]
  exact hcond

/-- In a `going` state the advance always produces the head of `rest` as the
next handle, with the computed predecessor. -/
theorem going_advance (c0 : List Nat) (st : Sess)
    (done rest' P dets ins : List Nat) (u : Nat)
    (hcom : CommonInv c0 st done (u :: rest') P dets ins)
    (hcurr : st.it.curr = done.getLastD 0)
    (hnext : st.it.next = (u :: rest').headD 0) :
    ontoNext st.h st.it = (some ⟨u, computedPrev st.h st.it⟩,
      ⟨st.h u, u, computedPrev st.h st.it, st.it.child⟩) := by
  have hc0ne : c0 ≠ [] := by
    rw [hcom.hsplit]
    simp
  have hchild0 : st.it.child ≠ 0 := by
    rw [hcom.hchild]
    exact fun he => hcom.hc0pos (he ▸ glD_mem c0 hc0ne 0)
  have hchildrest : st.it.child ∈ u :: rest' := by
    rw [hcom.hchild, hcom.hsplit, glD_app done (u :: rest') 0 (by simp)]
    exact glD_mem (u :: rest') (by simp) 0
  have hnextu : st.it.next = u := by rw [hnext]; rfl
  have hnext0 : st.it.next ≠ 0 :=
    hnextu ▸ hcom.rest_pos u (by simp)
  have hnoret : st.it.curr = 0 ∨ (st.it.curr ≠ st.it.child ∧ st.it.curr ≠ st.it.next) := by
    cases hd : done with
    | nil =>
      left
      rw [hcurr, hd]
      rfl
    | cons a d' =>
      right
      have hcmem : st.it.curr ∈ done := by
        rw [hcurr, hd]
        exact glD_mem (a :: d') (by simp) 0
      constructor
      · intro he
        exact hcom.done_rest _ hcmem (he ▸ hchildrest)
      · intro he
        exact hcom.done_rest _ hcmem (he ▸ hnextu ▸ List.mem_cons_self u rest')
  have := ontoNext_going st.h st.it hchild0 hnoret hnext0
  rwa [hnextu] at this

/-- Step case: plain advance (the cached predecessor `p` handed to the new
handle may be stale; it only must not alias the link into the next node). -/
theorem step_adv (c0 : List Nat) (fp' : Bool) (st : Sess)
    (done rest' P dets ins : List Nat) (u p : Nat)
    (hcom : CommonInv c0 st done (u :: rest') P dets ins)
    (hpv : ∀ v rt, rest' = v :: rt → st.h p ≠ v) :
    SessInv c0 fp' ⟨st.h, st.s, ⟨st.h u, u, p, st.it.child⟩⟩
      (done ++ [u]) rest' (P ++ [u]) dets ins := by
  have hudets : u ∉ dets := fun hd =>
    hcom.done_rest u (hcom.hdets u hd) (by simp)
  have hrepr' : reprF st.h ⟨st.s⟩ ((P ++ [u]) ++ rest') := by
    have := hcom.hrepr
    rwa [List.append_cons P u rest'] at this
  have hcom' : CommonInv c0 ⟨st.h, st.s, ⟨st.h u, u, p, st.it.child⟩⟩
      (done ++ [u]) rest' (P ++ [u]) dets ins :=
    { hc0nd := hcom.hc0nd
      hc0pos := hcom.hc0pos
      hsplit := hcom.hsplit.trans (List.append_cons done u rest')
      hrepr := hrepr'
      hchild := hcom.hchild
      hmem := hmem_adv P done dets ins u hcom.hmem hudets
      hlen := by
        have := hcom.hlen
        simp only [List.length_append, List.length_cons, List.length_nil]
        omega
      hinsf := hcom.hinsf
      hdets := fun x hx => List.mem_append_left [u] (hcom.hdets x hx)
      hinsnd := hcom.hinsnd
      hdetsnd := hcom.hdetsnd }
  cases hre : rest' with
  | nil =>
    subst hre
    apply SessInv.stopped fp' _ _ _ _ _ hcom'
    right
    constructor
    · show u = st.it.child
      rw [hcom.hchild, hcom.hsplit, glD_app done [u] 0 (by simp)]
      rfl
    · exact hcom.rest_pos u (by simp)
  | cons v rt =>
    subst hre
    have hrestnd : (u :: v :: rt).Nodup :=
      (hcom.hsplit ▸ hcom.hc0nd).of_append_right
    have huv : u ≠ v := fun he =>
      (List.nodup_cons.mp hrestnd).1 (he ▸ List.mem_cons_self v rt)
    have hlink : st.h u = v := by
      have := chain_link_at st.h ⟨st.s⟩ P (v :: rt) u hcom.hrepr (by simp)
      rwa [List.headD_cons] at this
    apply SessInv.going fp' _ _ _ _ _ _ hcom' (by simp)
    · show u = (done ++ [u]).getLastD 0
      rw [List.getLastD_concat]
    · show st.h u = (v :: rt).headD 0
      rw [hlink]
      rfl
    · show computedPrev st.h ⟨st.h u, u, p, st.it.child⟩
        = (P ++ [u]).getLastD ((v :: rt).getLastD 0)
      rw [computedPrev_eq_curr st.h (st.h u) u p st.it.child
        ⟨hcom.rest_pos u (by simp), by rw [hlink]; exact hpv v rt rfl⟩]
      rw [List.getLastD_concat]

theorem insert_before_unfold (h : Heap) (s n p r : Nat) :
    insert_before h s ⟨n, p⟩ r = (upd (upd h r n) p r, s) := rfl

theorem insert_after_unfold (h : Heap) (s n p r : Nat) :
    insert_after h s ⟨n, p⟩ r
      = (upd (upd h r (h n)) n r, if s = n then r else s) := rfl

theorem depart_unfold (h : Heap) (s n p : Nat) :
    depart h s ⟨n, p⟩ = (upd (upd h p (h n)) n n,
      if s = n then (if h n = n then 0 else p) else s, n) := rfl

/-- Step case: advance then `insert_before` through a handle whose cached
predecessor `q` is the true chain predecessor of the yielded node. -/
theorem step_bef (c0 : List Nat) (fp' : Bool) (st : Sess)
    (done rest' P dets ins : List Nat) (u q r : Nat)
    (hcom : CommonInv c0 st done (u :: rest') P dets ins)
    (hqv : q = P.getLastD ((u :: rest').getLastD 0))
    (hrc0 : r ∉ c0) (hr0 : r ≠ 0) (hrins : r ∉ ins) :
    SessInv c0 fp' ⟨upd (upd st.h r u) q r, st.s, ⟨st.h u, u, q, st.it.child⟩⟩
      (done ++ [u]) rest' (P ++ [r, u]) dets (ins ++ [r]) := by
  have hudets : u ∉ dets := fun hd =>
    hcom.done_rest u (hcom.hdets u hd) (by simp)
  have hrch : r ∉ P ++ u :: rest' := hcom.fresh_chain r hrc0 hrins
  have hspl := splice_insert st.h ⟨st.s⟩ P (u :: rest') r hcom.hrepr (by simp) hrch hr0
  have hqeq : P.getLastD ((P ++ u :: rest').getLastD 0) = q := by
    rw [hqv, glD_app P (u :: rest') 0 (by simp)]
  rw [show ((u :: rest').headD 0) = u from rfl, hqeq] at hspl
  have hrepr' : reprF (upd (upd st.h r u) q r) ⟨st.s⟩ ((P ++ [r, u]) ++ rest') := by
    rw [List.append_assoc]
    exact hspl
  have hcom' : CommonInv c0
      ⟨upd (upd st.h r u) q r, st.s, ⟨st.h u, u, q, st.it.child⟩⟩
      (done ++ [u]) rest' (P ++ [r, u]) dets (ins ++ [r]) :=
    { hc0nd := hcom.hc0nd
      hc0pos := hcom.hc0pos
      hsplit := hcom.hsplit.trans (List.append_cons done u rest')
      hrepr := hrepr'
      hchild := hcom.hchild
      hmem := hmem_ins P done dets ins u r r u hcom.hmem hudets (fun x => or_comm)
      hlen := by
        have := hcom.hlen
        simp only [List.length_append, List.length_cons, List.length_nil]
        omega
      hinsf := by
        intro x hx
        rcases List.mem_append.mp hx with hx | hx
        · exact hcom.hinsf x hx
        · rw [List.mem_singleton.mp hx]
          exact hrc0
      hdets := fun x hx => List.mem_append_left [u] (hcom.hdets x hx)
      hinsnd := hcom.hinsnd.append (List.nodup_singleton r)
        (List.disjoint_singleton.mpr hrins)
      hdetsnd := hcom.hdetsnd }
  cases hre : rest' with
  | nil =>
    subst hre
    apply SessInv.stopped fp' _ _ _ _ _ hcom'
    right
    constructor
    · show u = st.it.child
      rw [hcom.hchild, hcom.hsplit, glD_app done [u] 0 (by simp)]
      rfl
    · exact hcom.rest_pos u (by simp)
  | cons v rt =>
    subst hre
    have hvc0 : v ∈ c0 := hcom.rest_c0 v (by simp)
    have hlink : st.h u = v := by
      have := chain_link_at st.h ⟨st.s⟩ P (v :: rt) u hcom.hrepr (by simp)
      rwa [List.headD_cons] at this
    apply SessInv.going fp' _ _ _ _ _ _ hcom' (by simp)
    · show u = (done ++ [u]).getLastD 0
      rw [List.getLastD_concat]
    · show st.h u = (v :: rt).headD 0
      rw [hlink]
      rfl
    · show computedPrev (upd (upd st.h r u) q r) ⟨st.h u, u, q, st.it.child⟩
        = (P ++ [r, u]).getLastD ((v :: rt).getLastD 0)
      rw [computedPrev_eq_curr _ (st.h u) u q st.it.child
        ⟨hcom.rest_pos u (by simp), by
          rw [upd_same, hlink]
          exact fun he => hrc0 (he ▸ hvc0)⟩]
      rw [show P ++ [r, u] = (P ++ [r]) ++ [u] from (List.append_assoc P [r] [u]).symm,
        List.getLastD_concat]

/-- Step case: advance then `insert_after`.  The handle's cached predecessor
`p` is unused by the splice, so this also covers advancing out of a `pend`
state; the result is always a `pend` (or `stopped`) state. -/
theorem step_aft (c0 : List Nat) (st : Sess)
    (done rest' P dets ins : List Nat) (u p r : Nat)
    (hcom : CommonInv c0 st done (u :: rest') P dets ins)
    (hside : ∀ v rt, rest' = v :: rt → p ≠ u ∧ p ≠ r ∧ st.h p ≠ v)
    (hrc0 : r ∉ c0) (hr0 : r ≠ 0) (hrins : r ∉ ins) :
    SessInv c0 true ⟨upd (upd st.h r (st.h u)) u r,
      if st.s = u then r else st.s, ⟨st.h u, u, p, st.it.child⟩⟩
      (done ++ [u]) rest' (P ++ [u, r]) dets (ins ++ [r]) := by
  have hudets : u ∉ dets := fun hd =>
    hcom.done_rest u (hcom.hdets u hd) (by simp)
  have hrch : r ∉ P ++ u :: rest' := hcom.fresh_chain r hrc0 hrins
  have hcommon :
      ∀ hrepr2 : reprF (upd (upd st.h r (st.h u)) u r)
        ⟨if st.s = u then r else st.s⟩ ((P ++ [u, r]) ++ rest'),
      CommonInv c0 ⟨upd (upd st.h r (st.h u)) u r,
        if st.s = u then r else st.s, ⟨st.h u, u, p, st.it.child⟩⟩
        (done ++ [u]) rest' (P ++ [u, r]) dets (ins ++ [r]) := by
    intro hrepr2
    exact
      { hc0nd := hcom.hc0nd
        hc0pos := hcom.hc0pos
        hsplit := hcom.hsplit.trans (List.append_cons done u rest')
        hrepr := hrepr2
        hchild := hcom.hchild
        hmem := hmem_ins P done dets ins u r u r hcom.hmem hudets (fun x => Iff.rfl)
        hlen := by
          have := hcom.hlen
          simp only [List.length_append, List.length_cons, List.length_nil]
          omega
        hinsf := by
          intro x hx
          rcases List.mem_append.mp hx with hx | hx
          · exact hcom.hinsf x hx
          · rw [List.mem_singleton.mp hx]
            exact hrc0
        hdets := fun x hx => List.mem_append_left [u] (hcom.hdets x hx)
        hinsnd := hcom.hinsnd.append (List.nodup_singleton r)
          (List.disjoint_singleton.mpr hrins)
        hdetsnd := hcom.hdetsnd }
  cases hre : rest' with
  | nil =>
    subst hre
    have hsu : st.s = u := by
      have := hcom.hrepr.1
      rw [List.getLastD_concat] at this
      exact this.symm
    have hspl := splice_end st.h ⟨st.s⟩ (P ++ [u]) r hcom.hrepr (by simp) hrch hr0
    have hhd : (P ++ [u] : List Nat).headD 0 = st.h u := by
      have := reprF_head_link st.h ⟨st.s⟩ (P ++ [u]) hcom.hrepr (by simp)
      rw [hsu] at this
      exact this.symm
    rw [hhd] at hspl
    rw [show ((⟨st.s⟩ : Forest)).sub = u from hsu] at hspl
    have hrepr2 : reprF (upd (upd st.h r (st.h u)) u r)
        ⟨if st.s = u then r else st.s⟩ ((P ++ [u, r]) ++ []) := by
      rw [if_pos hsu, List.append_nil,
        show P ++ [u, r] = (P ++ [u]) ++ [r] from (List.append_assoc P [u] [r]).symm]
      exact hspl
    apply SessInv.stopped true _ _ _ _ _ (hcommon hrepr2)
    right
    constructor
    · show u = st.it.child
      rw [hcom.hchild, hcom.hsplit, glD_app done [u] 0 (by simp)]
      rfl
    · exact hcom.rest_pos u (by simp)
  | cons v rt =>
    subst hre
    have hrestnd : (u :: v :: rt).Nodup :=
      (hcom.hsplit ▸ hcom.hc0nd).of_append_right
    have hsmem : st.s ∈ v :: rt := by
      have hthis : (v :: rt).getLastD 0 = st.s := by
        have := hcom.hrepr.1
        rw [glD_app P (u :: v :: rt) 0 (by simp), List.getLastD_cons,
          glD_irrel (v :: rt) (by simp) u 0] at this
        exact this
      exact hthis ▸ glD_mem (v :: rt) (by simp) 0
    have hsu : st.s ≠ u := fun he =>
      (List.nodup_cons.mp hrestnd).1 (he ▸ hsmem)
    have hlink : st.h u = v := by
      have := chain_link_at st.h ⟨st.s⟩ P (v :: rt) u hcom.hrepr (by simp)
      rwa [List.headD_cons] at this
    have hrepr0 : reprF st.h ⟨st.s⟩ ((P ++ [u]) ++ v :: rt) := by
      rw [List.append_assoc]
      exact hcom.hrepr
    have hrch2 : r ∉ (P ++ [u]) ++ v :: rt := by
      rw [List.append_assoc]
      exact hrch
    have hspl := splice_insert st.h ⟨st.s⟩ (P ++ [u]) (v :: rt) r hrepr0
      (by simp) hrch2 hr0
    rw [List.getLastD_concat,
      show ((v :: rt : List Nat).headD 0) = v from rfl] at hspl
    have hrepr2 : reprF (upd (upd st.h r (st.h u)) u r)
        ⟨if st.s = u then r else st.s⟩ ((P ++ [u, r]) ++ v :: rt) := by
      rw [if_neg hsu, List.append_assoc, hlink]
      rw [List.append_assoc] at hspl
      exact hspl
    apply SessInv.pend _ (done ++ [u]) (v :: rt) (P ++ [u, r]) P dets
      (ins ++ [r]) r (by rw [List.getLastD_concat]) (hcommon hrepr2)
      (by simp) (by simp)
    · show u = (done ++ [u]).getLastD 0
      rw [List.getLastD_concat]
    · show st.h u = (v :: rt).headD 0
      rw [hlink]
      rfl
    · obtain ⟨hpu, hpr, hpv⟩ := hside v rt rfl
      show upd (upd st.h r (st.h u)) u r p ≠ st.h u
      rw [upd_other _ _ _ _ hpu, upd_other _ _ _ _ hpr, hlink]
      exact hpv
    · exact List.mem_append_right ins (by simp)

/-- Step case: advance then `depart` through a handle whose cached
predecessor `q` is the true chain predecessor of the yielded node. -/
theorem step_det (c0 : List Nat) (fp' : Bool) (st : Sess)
    (done rest' P dets ins : List Nat) (u q : Nat)
    (hcom : CommonInv c0 st done (u :: rest') P dets ins)
    (hqv : q = P.getLastD ((u :: rest').getLastD 0)) :
    SessInv c0 fp' ⟨upd (upd st.h q (st.h u)) u u,
      if st.s = u then (if st.h u = u then 0 else q) else st.s,
      ⟨st.h u, u, q, st.it.child⟩⟩
      (done ++ [u]) rest' P (dets ++ [u]) ins := by
  have hudets : u ∉ dets := fun hd =>
    hcom.done_rest u (hcom.hdets u hd) (by simp)
  have hchnd : (P ++ u :: rest').Nodup := hcom.hrepr.2.2.1
  have huP : u ∉ P := fun hm =>
    List.disjoint_of_nodup_append hchnd hm (by simp)
  have huins : u ∉ ins := fun hi =>
    hcom.hinsf u hi (hcom.rest_c0 u (by simp))
  have hqeq : P.getLastD ((P ++ u :: rest').getLastD 0) = q := by
    rw [hqv, glD_app P (u :: rest') 0 (by simp)]
  have hrem := remove_repr st.h ⟨st.s⟩ P rest' u hcom.hrepr
  rw [hqeq] at hrem
  have hsub := depart_sub_eq st.h ⟨st.s⟩ P rest' u hcom.hrepr
  rw [hqeq] at hsub
  have hrepr' : reprF (upd (upd st.h q (st.h u)) u u)
      ⟨if st.s = u then (if st.h u = u then 0 else q) else st.s⟩ (P ++ rest') := by
    rw [show (if st.s = u then (if st.h u = u then 0 else q) else st.s)
      = if rest' = [] then P.getLastD 0 else st.s from hsub]
    exact hrem
  have hcom' : CommonInv c0 ⟨upd (upd st.h q (st.h u)) u u,
      if st.s = u then (if st.h u = u then 0 else q) else st.s,
      ⟨st.h u, u, q, st.it.child⟩⟩
      (done ++ [u]) rest' P (dets ++ [u]) ins :=
    { hc0nd := hcom.hc0nd
      hc0pos := hcom.hc0pos
      hsplit := hcom.hsplit.trans (List.append_cons done u rest')
      hrepr := hrepr'
      hchild := hcom.hchild
      hmem := hmem_det P done dets ins u hcom.hmem huP huins
      hlen := by
        have := hcom.hlen
        simp only [List.length_append, List.length_cons, List.length_nil]
        omega
      hinsf := hcom.hinsf
      hdets := by
        intro x hx
        rcases List.mem_append.mp hx with hx | hx
        · exact List.mem_append_left [u] (hcom.hdets x hx)
        · exact List.mem_append_right done hx
      hinsnd := hcom.hinsnd
      hdetsnd := hcom.hdetsnd.append (List.nodup_singleton u)
        (List.disjoint_singleton.mpr hudets) }
  cases hre : rest' with
  | nil =>
    subst hre
    apply SessInv.stopped fp' _ _ _ _ _ hcom'
    right
    constructor
    · show u = st.it.child
      rw [hcom.hchild, hcom.hsplit, glD_app done [u] 0 (by simp)]
      rfl
    · exact hcom.rest_pos u (by simp)
  | cons v rt =>
    subst hre
    have hrestnd : (u :: v :: rt).Nodup :=
      (hcom.hsplit ▸ hcom.hc0nd).of_append_right
    have hlink : st.h u = v := by
      have := chain_link_at st.h ⟨st.s⟩ P (v :: rt) u hcom.hrepr (by simp)
      rwa [List.headD_cons] at this
    have hqu : q ≠ u := by
      cases hp : P with
      | nil =>
        rw [hp] at hqv
        have : q ∈ v :: rt := by
          rw [show (([] : List Nat).getLastD ((u :: v :: rt).getLastD 0))
            = (u :: v :: rt).getLastD 0 from rfl] at hqv
          rw [List.getLastD_cons, glD_irrel (v :: rt) (by simp) u 0] at hqv
          exact hqv ▸ glD_mem (v :: rt) (by simp) 0
        exact fun he => (List.nodup_cons.mp hrestnd).1 (he ▸ this)
      | cons a pt =>
        have : q ∈ P := by
          rw [hqv, hp]
          exact glD_mem (a :: pt) (by simp) _
        exact fun he => huP (he ▸ this)
    apply SessInv.going fp' _ _ _ _ _ _ hcom' (by simp)
    · show u = (done ++ [u]).getLastD 0
      rw [List.getLastD_concat]
    · show st.h u = (v :: rt).headD 0
      rw [hlink]
      rfl
    · show computedPrev (upd (upd st.h q (st.h u)) u u) ⟨st.h u, u, q, st.it.child⟩
        = P.getLastD ((v :: rt).getLastD 0)
      have hq2 : (upd (upd st.h q (st.h u)) u u) q = st.h u := by
        rw [upd_other _ _ _ _ hqu, upd_same]
      rw [computedPrev_eq_prev _ (st.h u) u q st.it.child
        (fun hcond => hcond.2 (by rw [hq2]))]
      rw [hqv, List.getLastD_cons, glD_irrel (v :: rt) (by simp) u 0]

theorem computedPrev_curr (h : Heap) (it : OntoIter)
    (hcond : it.curr ≠ 0 ∧ h it.prev ≠ it.next) :
    computedPrev h it = it.curr := by
  rw [computedPrev, if_pos hcond]

/-- The chain predecessor of the head of the unvisited region belongs to the
chain. -/
theorem pred_mem_chain (P rest : List Nat) (hrest : rest ≠ []) :
    P.getLastD (rest.getLastD 0) ∈ P ++ rest := by
  cases hp : P with
  | nil =>
    show rest.getLastD 0 ∈ [] ++ rest
    exact List.mem_append_right [] (glD_mem rest hrest 0)
  | cons a pt =>
    exact List.mem_append_left rest (glD_mem (a :: pt) (by simp) _)

/-- The chain predecessor of `u` differs from `u` whenever at least one more
node follows. -/
theorem pred_ne_head (P : List Nat) (u v : Nat) (rt : List Nat)
    (hnd : (P ++ u :: v :: rt).Nodup) :
    P.getLastD ((u :: v :: rt).getLastD 0) ≠ u := by
  have hrestnd : (u :: v :: rt).Nodup := hnd.of_append_right
  have huP : u ∉ P := fun hm =>
    List.disjoint_of_nodup_append hnd hm (by simp)
  cases hp : P with
  | nil =>
    show (u :: v :: rt : List Nat).getLastD 0 ≠ u
    rw [List.getLastD_cons, glD_irrel (v :: rt) (by simp) u 0]
    exact fun he =>
      (List.nodup_cons.mp hrestnd).1 (he ▸ glD_mem (v :: rt) (by simp) 0)
  | cons a pt =>
    rw [hp] at huP
    exact fun he => huP (he ▸ glD_mem (a :: pt) (by simp) _)

/-- One move preserves the session invariant: it yields exactly the head of
the unvisited region (nothing once exhausted), inserts only the move's own
root, and steps the ghost state accordingly. -/
theorem sess_step (c0 : List Nat) (fp : Bool) (st : Sess)
    (done rest P dets ins : List Nat) (m : Move)
    (inv : SessInv c0 fp st done rest P dets ins)
    (hmv : fp = true → m = Move.adv ∨ ∃ r, m = Move.aft r)
    (hfr : ∀ r, movRoot m = some r → r ∉ c0 ∧ r ≠ 0 ∧ r ∉ ins) :
    (doMove st m).yld = rest.head? ∧
    (∀ r, (doMove st m).ins = some r → movRoot m = some r) ∧
    ∃ P', SessInv c0 m.isAft (doMove st m).st (done ++ rest.take 1)
      (rest.drop 1) P' (dets ++ (doMove st m).dep.toList)
      (ins ++ (doMove st m).ins.toList) := by
  cases inv with
  | stopped fp st done P dets ins hcom hstop =>
    rw [doMove_stopped st m hstop]
    refine ⟨rfl, ?_, P, ?_⟩
    · intro r hr
      simp at hr
    · simpa using SessInv.stopped m.isAft st done P dets ins hcom hstop
  | going fp st done rest P dets ins hcom hne hcurr hnext hprev =>
    cases rest with
    | nil => exact absurd rfl hne
    | cons u rest' =>
      have hadv := going_advance c0 st done rest' P dets ins u hcom hcurr hnext
      rw [hprev] at hadv
      have hql : st.h (P.getLastD ((u :: rest').getLastD 0)) = u := by
        have := pred_link st.h ⟨st.s⟩ P (u :: rest') hcom.hrepr (by simp)
        rwa [List.headD_cons] at this
      have hrestnd : (u :: rest').Nodup :=
        (hcom.hsplit ▸ hcom.hc0nd).of_append_right
      cases m with
      | adv =>
        rw [doMove_adv st _ _ hadv]
        refine ⟨rfl, ?_, P ++ [u], ?_⟩
        · intro r hr
          simp at hr
        · have hpv : ∀ v rt, rest' = v :: rt
              → st.h (P.getLastD ((u :: rest').getLastD 0)) ≠ v := by
            intro v rt hre
            subst hre
            rw [hql]
            exact fun he =>
              (List.nodup_cons.mp hrestnd).1 (he ▸ List.mem_cons_self v rt)
          simpa using step_adv c0 Move.adv.isAft st done rest' P dets ins u
            (P.getLastD ((u :: rest').getLastD 0)) hcom hpv
      | bef r =>
        obtain ⟨hrc0, hr0, hrins⟩ := hfr r rfl
        rw [doMove_bef st _ _ r hadv]
        refine ⟨rfl, ?_, P ++ [r, u], ?_⟩
        · intro r' hr'
          simp only at hr'
          show some r = some r'
          exact hr'
        · simpa [insert_before_unfold] using
            step_bef c0 (Move.bef r).isAft st done rest' P dets ins u
              (P.getLastD ((u :: rest').getLastD 0)) r hcom rfl hrc0 hr0 hrins
      | aft r =>
        obtain ⟨hrc0, hr0, hrins⟩ := hfr r rfl
        rw [doMove_aft st _ _ r hadv]
        refine ⟨rfl, ?_, P ++ [u, r], ?_⟩
        · intro r' hr'
          simp only at hr'
          show some r = some r'
          exact hr'
        · have hside : ∀ v rt, rest' = v :: rt →
              P.getLastD ((u :: rest').getLastD 0) ≠ u ∧
              P.getLastD ((u :: rest').getLastD 0) ≠ r ∧
              st.h (P.getLastD ((u :: rest').getLastD 0)) ≠ v := by
            intro v rt hre
            subst hre
            refine ⟨pred_ne_head P u v rt hcom.hrepr.2.2.1, ?_, ?_⟩
            · intro he
              exact (hcom.fresh_chain r hrc0 hrins)
                (he ▸ pred_mem_chain P (u :: v :: rt) (by simp))
            · rw [hql]
              exact fun he =>
                (List.nodup_cons.mp hrestnd).1 (he ▸ List.mem_cons_self v rt)
          simpa [insert_after_unfold] using
            step_aft c0 st done rest' P dets ins u
              (P.getLastD ((u :: rest').getLastD 0)) r hcom hside hrc0 hr0 hrins
      | det =>
        rw [doMove_det st _ _ hadv]
        refine ⟨rfl, ?_, P, ?_⟩
        · intro r hr
          simp at hr
        · simpa [depart_unfold] using
            step_det c0 Move.det.isAft st done rest' P dets ins u
              (P.getLastD ((u :: rest').getLastD 0)) hcom rfl
  | pend st done rest P P0 dets ins r0 hP hcom hne hdne hcurr hnext hprevne hrins0 =>
    cases rest with
    | nil => exact absurd rfl hne
    | cons u rest' =>
      have hadv := going_advance c0 st done rest' P dets ins u hcom hcurr hnext
      have hcurr0 : st.it.curr ≠ 0 := by
        rw [hcurr]
        exact fun he => hcom.hc0pos
          (he ▸ hcom.done_c0 _ (glD_mem done hdne 0))
      have hcp : computedPrev st.h st.it = done.getLastD 0 :=
        (computedPrev_curr st.h st.it ⟨hcurr0, hprevne⟩).trans hcurr
      rw [hcp] at hadv
      have hlink0 : st.h (done.getLastD 0) = r0 := by
        have hrepr0 : reprF st.h ⟨st.s⟩ (P0 ++ (done.getLastD 0) :: r0 :: u :: rest') := by
          have := hcom.hrepr
          rw [hP, List.append_assoc] at this
          exact this
        have := chain_link_at st.h ⟨st.s⟩ P0 (r0 :: u :: rest') (done.getLastD 0)
          hrepr0 (by simp)
        rwa [List.headD_cons] at this
      have hr0c0 : r0 ∉ c0 := hcom.hinsf r0 hrins0
      have hnu : done.getLastD 0 ≠ u :=
        fun he => hcom.done_rest _ (glD_mem done hdne 0) (he ▸ by simp)
      cases m with
      | adv =>
        rw [doMove_adv st _ _ hadv]
        refine ⟨rfl, ?_, P ++ [u], ?_⟩
        · intro r hr
          simp at hr
        · have hpv : ∀ v rt, rest' = v :: rt → st.h (done.getLastD 0) ≠ v := by
            intro v rt hre
            rw [hlink0]
            exact fun he => hr0c0 (he ▸ hcom.rest_c0 v (by rw [hre]; simp))
          simpa using step_adv c0 Move.adv.isAft st done rest' P dets ins u
            (done.getLastD 0) hcom hpv
      | bef r =>
        rcases hmv rfl with hmm | ⟨r', hmm⟩ <;> exact Move.noConfusion hmm
      | det =>
        rcases hmv rfl with hmm | ⟨r', hmm⟩ <;> exact Move.noConfusion hmm
      | aft r =>
        obtain ⟨hrc0, hr0, hrins⟩ := hfr r rfl
        rw [doMove_aft st _ _ r hadv]
        refine ⟨rfl, ?_, P ++ [u, r], ?_⟩
        · intro r' hr'
          simp only at hr'
          show some r = some r'
          exact hr'
        · have hside : ∀ v rt, rest' = v :: rt →
              done.getLastD 0 ≠ u ∧ done.getLastD 0 ≠ r ∧
              st.h (done.getLastD 0) ≠ v := by
            intro v rt hre
            refine ⟨hnu, ?_, ?_⟩
            · exact fun he => hrc0 (he ▸ hcom.done_c0 _ (glD_mem done hdne 0))
            · rw [hlink0]
              exact fun he => hr0c0 (he ▸ hcom.rest_c0 v (by rw [hre]; simp))
          simpa [insert_after_unfold] using
            step_aft c0 st done rest' P dets ins u (done.getLastD 0) r
              hcom hside hrc0 hr0 hrins

/-- The session discipline: a handle reached right after an `insert_after`
performs only a plain advance or another `insert_after` (no `insert_before`
or `depart`, whose cached predecessor would be stale). -/
def okRun : Bool → List Move → Prop
  | _, [] => True
  | fp, m :: ms =>
    (fp = false ∨ m = Move.adv ∨ m.isAft = true) ∧ okRun m.isAft ms

instance okRunDec : (fp : Bool) → (ms : List Move) → Decidable (okRun fp ms)
  | _, [] => .isTrue trivial
  | fp, m :: ms =>
    have : Decidable (okRun m.isAft ms) := okRunDec m.isAft ms
    inferInstanceAs (Decidable (_ ∧ _))

theorem okRun_head (fp : Bool) (m : Move)
    (h : fp = false ∨ m = Move.adv ∨ m.isAft = true) :
    fp = true → m = Move.adv ∨ ∃ r, m = Move.aft r := by
  intro hfp
  rcases h with h1 | h2 | h3
  · rw [hfp] at h1
    exact absurd h1 (by simp)
  · exact Or.inl h2
  · right
    cases m with
    | adv => simp [Move.isAft] at h3
    | bef r => simp [Move.isAft] at h3
    | det => simp [Move.isAft] at h3
    | aft r => exact ⟨r, rfl⟩

theorem run_cons (st : Sess) (m : Move) (ms : List Move) :
    run st (m :: ms) = ⟨(run (doMove st m).st ms).st,
      (doMove st m).yld.toList ++ (run (doMove st m).st ms).ylds,
      (doMove st m).dep.toList ++ (run (doMove st m).st ms).deps,
      (doMove st m).ins.toList ++ (run (doMove st m).st ms).inss⟩ := rfl

theorem movRoots_cons (m : Move) (ms : List Move) :
    movRoots (m :: ms) = (movRoot m).toList ++ movRoots ms := by
  cases m <;> simp [movRoots, movRoot, List.filterMap_cons]

theorem take_succ_head (l : List Nat) (n : Nat) :
    l.take (n + 1) = l.head?.toList ++ (l.drop 1).take n := by
  cases l <;> simp

/-- Whole-session soundness: under the discipline and freshness of the
inserted roots, a session on a represented forest yields exactly the first
`ms.length` chain nodes in order, inserts only its own roots, and ends in a
state satisfying the invariant again. -/
theorem sess_master (c0 : List Nat) (ms : List Move) :
    ∀ (fp : Bool) (st : Sess) (done rest P dets ins : List Nat),
    SessInv c0 fp st done rest P dets ins →
    okRun fp ms →
    (∀ r ∈ movRoots ms, r ∉ c0 ∧ r ≠ 0 ∧ r ∉ ins) →
    (movRoots ms).Nodup →
    (run st ms).ylds = rest.take ms.length ∧
    (∀ r ∈ (run st ms).inss, r ∈ movRoots ms) ∧
    ∃ fp' P', SessInv c0 fp' (run st ms).st (done ++ (run st ms).ylds)
      (rest.drop ms.length) P' (dets ++ (run st ms).deps)
      (ins ++ (run st ms).inss) := by
  induction ms with
  | nil =>
    intro fp st done rest P dets ins inv hok hfr hnd
    refine ⟨rfl, by intro r hr; exact absurd hr (by simp [run]), fp, P, ?_⟩
    simpa [run] using inv
  | cons m ms ih =>
    intro fp st done rest P dets ins inv hok hfr hnd
    have hfr1 : ∀ r, movRoot m = some r → r ∉ c0 ∧ r ≠ 0 ∧ r ∉ ins := by
      intro r hr
      refine hfr r ?_
      rw [movRoots_cons, hr]
      simp
    obtain ⟨hyld, hinsmv, P1, hinv1⟩ :=
      sess_step c0 fp st done rest P dets ins m inv (okRun_head fp m hok.1) hfr1
    have hndms : (movRoots ms).Nodup := by
      rw [movRoots_cons] at hnd
      exact hnd.of_append_right
    have hfrms : ∀ r ∈ movRoots ms, r ∉ c0 ∧ r ≠ 0 ∧
        r ∉ ins ++ (doMove st m).ins.toList := by
      intro r hr
      obtain ⟨h1, h2, h3⟩ := hfr r (by rw [movRoots_cons]; exact List.mem_append_right _ hr)
      refine ⟨h1, h2, ?_⟩
      intro hmem
      rcases List.mem_append.mp hmem with hx | hx
      · exact h3 hx
      · cases hi : (doMove st m).ins with
        | none => rw [hi] at hx; simp at hx
        | some r' =>
          rw [hi] at hx
          have hrr : r = r' := by simpa using hx
          have hmv' : movRoot m = some r' := hinsmv r' hi
          rw [movRoots_cons, hmv'] at hnd
          have : r' ∉ movRoots ms := by
            have := List.disjoint_of_nodup_append hnd
            exact fun hm => this (by simp) hm
          exact this (hrr ▸ hr)
    obtain ⟨hylds, hinss, fp', P', hinv'⟩ :=
      ih m.isAft (doMove st m).st (done ++ rest.take 1) (rest.drop 1)
        P1 (dets ++ (doMove st m).dep.toList)
        (ins ++ (doMove st m).ins.toList) hinv1 hok.2 hfrms hndms
    rw [run_cons]
    refine ⟨?_, ?_, fp', P', ?_⟩
    · show (doMove st m).yld.toList ++ (run (doMove st m).st ms).ylds
        = rest.take (ms.length + 1)
      rw [take_succ_head rest ms.length, hylds, hyld]
    · intro r hr
      rcases List.mem_append.mp hr with hx | hx
      · cases hi : (doMove st m).ins with
        | none => rw [hi] at hx; simp at hx
        | some r' =>
          rw [hi] at hx
          have hrr : r = r' := by simpa using hx
          rw [movRoots_cons, hinsmv r' hi, hrr]
          simp
      · rw [movRoots_cons]
        exact List.mem_append_right _ (hinss r hx)
    · have hdrop : rest.drop (ms.length + 1) = (rest.drop 1).drop ms.length := by
        rw [List.drop_drop, Nat.add_comm]
      have hyld1 : (doMove st m).yld.toList = rest.take 1 := by
        rw [hyld, take_succ_head rest 0]
        simp
      show SessInv c0 fp' (run (doMove st m).st ms).st
        (done ++ ((doMove st m).yld.toList ++ (run (doMove st m).st ms).ylds))
        (rest.drop (m :: ms).length) P'
        (dets ++ ((doMove st m).dep.toList ++ (run (doMove st m).st ms).deps))
        (ins ++ ((doMove st m).ins.toList ++ (run (doMove st m).st ms).inss))
      rw [List.length_cons, hdrop, hyld1, ← List.append_assoc,
        ← List.append_assoc, ← List.append_assoc]
      exact hinv'

/-- The invariant at the start of a session. -/
theorem sessInit (h : Heap) (s : Nat) (c0 : List Nat) (hr : reprF h ⟨s⟩ c0) :
    SessInv c0 false ⟨h, s, subtrees h ⟨s⟩⟩ [] c0 [] [] [] := by
  by_cases hc : c0 = []
  · subst hc
    have h0 : s = 0 := (reprF_zero_iff h ⟨s⟩ [] hr).mpr rfl
    subst h0
    have hsub : subtrees h ⟨0⟩ = ⟨0, 0, 0, 0⟩ := by
      rw [subtrees, if_pos rfl]
    apply SessInv.stopped false _ _ _ _ _ ?_ ?_
    · exact
        { hc0nd := List.nodup_nil
          hc0pos := by simp
          hsplit := rfl
          hrepr := hr
          hchild := by rw [hsub]; rfl
          hmem := by simp
          hlen := rfl
          hinsf := by simp
          hdets := by simp
          hinsnd := List.nodup_nil
          hdetsnd := List.nodup_nil }
    · left
      rw [hsub]
  · have h0 : s ≠ 0 := fun he => hc ((reprF_zero_iff h ⟨s⟩ c0 hr).mp he)
    have hsub : subtrees h ⟨s⟩ = ⟨h s, 0, s, s⟩ := by
      rw [subtrees, if_neg h0]
      rfl
    apply SessInv.going false _ _ _ _ _ _ ?_ hc ?_ ?_ ?_
    · exact
        { hc0nd := hr.2.2.1
          hc0pos := hr.2.2.2
          hsplit := rfl
          hrepr := hr
          hchild := by rw [hsub]; exact hr.1.symm
          hmem := by simp
          hlen := rfl
          hinsf := by simp
          hdets := by simp
          hinsnd := List.nodup_nil
          hdetsnd := List.nodup_nil }
    · rw [hsub]
      rfl
    · rw [hsub]
      show h s = c0.headD 0
      exact reprF_head_link h ⟨s⟩ c0 hr hc
    · rw [hsub]
      rw [computedPrev_eq_prev h (h s) 0 s s (by simp)]
      show s = ([] : List Nat).getLastD (c0.getLastD 0)
      exact hr.1.symm

/-- Every constructor of the invariant carries the common bookkeeping. -/
theorem SessInv.common {c0 : List Nat} {fp : Bool} {st : Sess}
    {done rest P dets ins : List Nat}
    (inv : SessInv c0 fp st done rest P dets ins) :
    CommonInv c0 st done rest P dets ins := by
  cases inv with
  | stopped fp st done P dets ins hcom hstop => exact hcom
  | going fp st done rest P dets ins hcom hne hcurr hnext hprev => exact hcom
  | pend st done rest P P0 dets ins r hP hcom hne hdne hcu hnx hpn hri => exact hcom

/-- Extraction: at any boundary the forest owns a valid chain whose members
are exactly the never-departed originals plus the inserted roots, counted
exactly once, and whose length is the original's plus insertions minus
departures. -/
theorem sessInv_chain {c0 : List Nat} {fp : Bool} {st : Sess}
    {done rest P dets ins : List Nat}
    (inv : SessInv c0 fp st done rest P dets ins) :
    reprF st.h ⟨st.s⟩ (P ++ rest) ∧
    (∀ x, x ∈ P ++ rest ↔ ((x ∈ c0 ∧ x ∉ dets) ∨ x ∈ ins)) ∧
    (P ++ rest).length + dets.length = c0.length + ins.length := by
  have hcom := inv.common
  refine ⟨hcom.hrepr, ?_, ?_⟩
  · intro x
    constructor
    · intro hx
      rcases List.mem_append.mp hx with hx | hx
      · rcases (hcom.hmem x).mp hx with ⟨hd, hnd⟩ | hi
        · exact Or.inl ⟨hcom.done_c0 x hd, hnd⟩
        · exact Or.inr hi
      · refine Or.inl ⟨hcom.rest_c0 x hx, ?_⟩
        intro hxdets
        exact hcom.done_rest x (hcom.hdets x hxdets) hx
    · intro hx
      rcases hx with ⟨hc0, hnd⟩ | hi
      · rw [hcom.hsplit] at hc0
        rcases List.mem_append.mp hc0 with hx | hx
        · exact List.mem_append_left rest ((hcom.hmem x).mpr (Or.inl ⟨hx, hnd⟩))
        · exact List.mem_append_right P hx
      · exact List.mem_append_left rest ((hcom.hmem x).mpr (Or.inr hi))
  · have h1 := hcom.hlen
    have h2 : c0.length = done.length + rest.length := by
      rw [hcom.hsplit, List.length_append]
    rw [List.length_append]
    omega

/-- A move other than `det` never departs a node. -/
theorem doMove_dep_none (st : Sess) (m : Move) (hm : m ≠ Move.det) :
    (doMove st m).dep = none := by
  rcases hadv : ontoNext st.h st.it with ⟨o, it2⟩
  cases o with
  | none => rw [doMove, hadv]
  | some sn =>
    cases m with
    | adv => rw [doMove, hadv]
    | bef r => rw [doMove, hadv]
    | aft r => rw [doMove, hadv]
    | det => exact absurd rfl hm

/-- A session without `det` moves departs nothing. -/
theorem run_no_det (st : Sess) (ms : List Move) (hnd : Move.det ∉ ms) :
    (run st ms).deps = [] := by
  induction ms generalizing st with
  | nil => rfl
  | cons m ms ih =>
    rw [run_cons]
    show (doMove st m).dep.toList ++ (run (doMove st m).st ms).deps = []
    rw [doMove_dep_none st m (fun he => hnd (he ▸ List.mem_cons_self m ms)),
      ih (doMove st m).st (fun hmem => hnd (List.mem_cons_of_mem m hmem))]
    rfl

/-- A cursor over an empty forest is permanently inert. -/
theorem run_stopped (st : Sess) (ms : List Move) (h0 : st.it.child = 0) :
    run st ms = ⟨st, [], [], []⟩ := by
  induction ms with
  | nil => rfl
  | cons m ms ih =>
    rw [run_cons, doMove_stopped st m (Or.inl h0), ih]
    rfl

theorem movRoots_replicate_adv (n : Nat) :
    movRoots (List.replicate n Move.adv) = [] := by
  induction n with
  | zero => rfl
  | succ k ih =>
    rw [List.replicate_succ, movRoots_cons, ih]
    rfl

theorem okRun_replicate_adv (fp : Bool) (n : Nat) :
    okRun fp (List.replicate n Move.adv) := by
  induction n generalizing fp with
  | zero => trivial
  | succ k ih =>
    rw [List.replicate_succ]
    exact ⟨Or.inr (Or.inl rfl), ih _⟩

/-! ## Concrete scenes, construction traces and composed splices -/

/-- Build a forest on an existing heap: each root is allocated (`Tree::new`
resets its sibling link to the self-loop) and pushed at the back. -/
def build2 (h : Heap) (l : List Nat) : Heap × Forest :=
  l.foldl (fun p r => push_back (newTree p.1 r) p.2 r) (h, Forest.new)

/-- Build a forest with the given child addresses from the zeroed heap. -/
def build (l : List Nat) : Heap × Forest := build2 (fun _ => 0) l

/-- The session state a fresh `subtrees` call opens on a heap and forest. -/
def sess0 (p : Heap × Forest) : Sess := ⟨p.1, p.2.sub, subtrees p.1 p.2⟩

/-- Payload lookup for the concrete insertion scenarios: addresses 1 and 2
carry their own number, the two inserted roots 3 and 4 both carry payload 3. -/
def payIns : Nat → Nat := fun x => if 3 ≤ x then 3 else x

/-- Payload lookup for the concrete splice scenario: address `x` carries
payload `x - 1`. -/
def payApp : Nat → Nat := fun x => x - 1

/-- A second forest with children 3 and 4 built beside `build [1, 2]`. -/
def twoF : Heap × Forest := build2 (build [1, 2]).1 [3, 4]

/-- A third forest with children 5 and 6 built beside the other two. -/
def threeH : Heap × Forest := build2 twoF.1 [5, 6]

/-- Left-associated double `append`: `(A append B) append C`. -/
def appL (h : Heap) (fa fb fc : Forest) : Heap × Forest × Forest :=
  append (append h fa fb).1 (append h fa fb).2.1 fc

/-- Right-associated double `append`: `A append (B append C)`. -/
def appR (h : Heap) (fa fb fc : Forest) : Heap × Forest × Forest :=
  append (append h fb fc).1 fa (append h fb fc).2.1

/-- Left-associated double `prepend`: `(A prepend B) prepend C`. -/
def prepL (h : Heap) (fa fb fc : Forest) : Heap × Forest × Forest :=
  prepend (prepend h fa fb).1 (prepend h fa fb).2.1 fc

/-- Right-associated double `prepend`: `A prepend (B prepend C)`. -/
def prepR (h : Heap) (fa fb fc : Forest) : Heap × Forest × Forest :=
  prepend (prepend h fb fc).1 fa (prepend h fb fc).2.1

/-- Construction traces: the forests reachable by the operation set. `init`
is `Forest::new`; `pushF`/`pushB` allocate a fresh nonnull root and push it
at the front or back; `popF` pops the head; `prep`/`app` splice in another
validly represented forest disjoint from this one. -/
inductive FTrace : Heap → Forest → List Nat → Prop where
  | init (h : Heap) : FTrace h Forest.new []
  | pushF {h : Heap} {f : Forest} {c : List Nat} (r : Nat) (ht : FTrace h f c)
      (hm : r ∉ c) (h0 : r ≠ 0) :
      FTrace (push_front (newTree h r) f r).1 (push_front (newTree h r) f r).2 (r :: c)
  | pushB {h : Heap} {f : Forest} {c : List Nat} (r : Nat) (ht : FTrace h f c)
      (hm : r ∉ c) (h0 : r ≠ 0) :
      FTrace (push_back (newTree h r) f r).1 (push_back (newTree h r) f r).2 (c ++ [r])
  | popF {h : Heap} {f : Forest} {a : Nat} {t : List Nat} (ht : FTrace h f (a :: t)) :
      FTrace (pop_front h f).1 (pop_front h f).2.1 t
  | prep {h : Heap} {f : Forest} {c : List Nat} (g : Forest) (lg : List Nat)
      (ht : FTrace h f c) (hg : reprF h g lg) (hdisj : ∀ x ∈ c, x ∉ lg) :
      FTrace (prepend h f g).1 (prepend h f g).2.1 (lg ++ c)
  | app {h : Heap} {f : Forest} {c : List Nat} (g : Forest) (lg : List Nat)
      (ht : FTrace h f c) (hg : reprF h g lg) (hdisj : ∀ x ∈ c, x ∉ lg) :
      FTrace (append h f g).1 (append h f g).2.1 (c ++ lg)

/-- Every constructed forest is validly represented: the chain invariant is
preserved by all the forest operations. -/
theorem ftrace_repr {h : Heap} {f : Forest} {c : List Nat} (ht : FTrace h f c) :
    reprF h f c := by
  induction ht with
  | init h => exact ⟨rfl, trivial, List.nodup_nil, by simp⟩
  | pushF r ht hm h0 ih =>
    refine push_front_repr _ _ _ r ?_ hm h0 (upd_same _ r r)
    exact reprF_frame _ _ _ _
      (fun a ha => upd_other _ _ _ a (fun he => hm (he ▸ ha))) ih
  | pushB r ht hm h0 ih =>
    refine push_back_repr _ _ _ r ?_ hm h0 (upd_same _ r r)
    exact reprF_frame _ _ _ _
      (fun a ha => upd_other _ _ _ a (fun he => hm (he ▸ ha))) ih
  | popF ht ih => exact (pop_front_repr _ _ _ _ ih).2.1
  | prep g lg ht hg hdisj ih => exact (prepend_repr _ _ g _ lg ih hg hdisj).1
  | app g lg ht hg hdisj ih => exact (append_repr _ _ g _ lg ih hg hdisj).1

/-- Under representation, `children` starts at the chain's head with the tail
slot as stop marker (the empty chain degenerates to the null head). -/
theorem children_eq (h : Heap) (f : Forest) (c : List Nat) (hr : reprF h f c)
    (n : Nat) : children h f n = ⟨c.headD 0, f.sub, n⟩ := by
  by_cases hc : c = []
  · subst hc
    have h0 : f.sub = 0 := (reprF_zero_iff h f [] hr).mpr rfl
    rw [children, if_pos h0, h0]
    rfl
  · have h0 : f.sub ≠ 0 := fun he => hc ((reprF_zero_iff h f c hr).mp he)
    rw [children, if_neg h0]
    show (⟨h f.sub, f.sub, n⟩ : Iter) = _
    rw [reprF_head_link h f c hr hc]

/-- A represented chain disjoint from another chain never holds the other
forest's tail-slot value. -/
theorem sub_notin (h : Heap) (f : Forest) (c d : List Nat) (hr : reprF h f c)
    (hd : ∀ x ∈ c, x ∉ d) (hpos : 0 ∉ d) : ∀ a ∈ d, a ≠ f.sub := by
  intro a ha
  by_cases hc : c = []
  · have h0 : f.sub = 0 := (reprF_zero_iff h f c hr).mpr hc
    rw [h0]
    exact fun he => hpos (he ▸ ha)
  · have hmem : f.sub ∈ c := reprF_sub_mem h f c hr hc
    exact fun he => hd f.sub hmem (he ▸ ha)

/-! ## The claims -/

/-- C1 counterexample: a session allowed by the claim's stated discipline
(one handle live at a time, each consumed by one mutation before the next
advance) — `insert_after 3` through the first handle, then `insert_before 4`
through the second — inserts 3 and 4 and departs nothing, yet the final
forest owns exactly the chain [1, 4, 2]: the inserted node 3 has been lost
(the second handle's cached predecessor was stale). -/
theorem spec_c1_lost_node :
    (run (sess0 (build [1, 2])) [Move.aft 3, Move.bef 4]).inss = [3, 4] ∧
    (run (sess0 (build [1, 2])) [Move.aft 3, Move.bef 4]).deps = [] ∧
    (run (sess0 (build [1, 2])) [Move.aft 3, Move.bef 4]).ylds = [1, 2] ∧
    reprF (run (sess0 (build [1, 2])) [Move.aft 3, Move.bef 4]).st.h
      ⟨(run (sess0 (build [1, 2])) [Move.aft 3, Move.bef 4]).st.s⟩ [1, 4, 2] ∧
    (3 : Nat) ∉ ([1, 4, 2] : List Nat) := by decide

/-- C1 (amended): for every forest built by the operation set and every
cursor session under the discipline strengthened to at most one mutation per
handle with the handle produced right after an `insert_after` only advanced
past or given another `insert_after` (`okRun`), the chain is valid at every
boundary: the built chain is validly represented, the session yields the
chain's nodes in order without repetition, and afterwards the forest owns a
valid circular chain holding exactly the never-departed originals plus the
inserted roots, each once — no node visited twice or lost. -/
theorem spec_c1_chain_safety (h : Heap) (f : Forest) (c : List Nat)
    (ht : FTrace h f c) (ms : List Move) (hok : okRun false ms)
    (hfr : ∀ r ∈ movRoots ms, r ∉ c ∧ r ≠ 0) (hnd : (movRoots ms).Nodup) :
    reprF h f c ∧
    (run (sess0 (h, f)) ms).ylds = c.take ms.length ∧
    ∃ d, reprF (run (sess0 (h, f)) ms).st.h ⟨(run (sess0 (h, f)) ms).st.s⟩ d ∧
      (∀ x, x ∈ d ↔ ((x ∈ c ∧ x ∉ (run (sess0 (h, f)) ms).deps)
        ∨ x ∈ (run (sess0 (h, f)) ms).inss)) ∧
      d.length + (run (sess0 (h, f)) ms).deps.length
        = c.length + (run (sess0 (h, f)) ms).inss.length := by
  obtain ⟨s⟩ := f
  have hr := ftrace_repr ht
  have hinv := sessInit h s c hr
  have hfr2 : ∀ r ∈ movRoots ms, r ∉ c ∧ r ≠ 0 ∧ r ∉ ([] : List Nat) :=
    fun r hm => ⟨(hfr r hm).1, (hfr r hm).2, by simp⟩
  obtain ⟨hy, hins, fp', P', hinv'⟩ :=
    sess_master c ms false ⟨h, s, subtrees h ⟨s⟩⟩ [] c [] [] [] hinv hok hfr2 hnd
  obtain ⟨hrepr2, hmem2, hlen2⟩ := sessInv_chain hinv'
  simp only [List.nil_append] at hmem2 hlen2
  exact ⟨hr, hy, P' ++ c.drop ms.length, hrepr2, hmem2, hlen2⟩

/-- C1 witness: the amended discipline applied at a concrete input. -/
theorem spec_c1_chain_safety_witness :
    (run (sess0 ((build [1, 2]).1, (build [1, 2]).2)) [Move.bef 5]).ylds
      = [1, 2].take [Move.bef 5].length :=
  (spec_c1_chain_safety (build [1, 2]).1 (build [1, 2]).2 [1, 2]
    (FTrace.pushB 2 (FTrace.pushB 1 (FTrace.init _) (by decide) (by decide))
      (by decide) (by decide))
    [Move.bef 5] (by decide) (by decide) (by decide)).2.1

/-- C2: a cursor that only advances yields exactly the chain, one handle per
child in head-to-tail order — the same sequence `children` enumerates — and
then stops: surplus advances past the chain's length yield nothing more, the
guard catching the return to the first-produced node instead of looping
around the cycle. -/
theorem spec_c2_cursor_order (h : Heap) (f : Forest) (c : List Nat) (k : Nat)
    (hr : reprF h f c) :
    (run (sess0 (h, f)) (List.replicate (c.length + k) Move.adv)).ylds = c ∧
    iterToList h (children h f c.length) c.length = c ∧
    (run (sess0 (h, f)) (List.replicate (c.length + k) Move.adv)).ylds.length
      = c.length := by
  obtain ⟨s⟩ := f
  have hinv := sessInit h s c hr
  have hfr : ∀ r ∈ movRoots (List.replicate (c.length + k) Move.adv),
      r ∉ c ∧ r ≠ 0 ∧ r ∉ ([] : List Nat) := by
    rw [movRoots_replicate_adv]
    intro r hm
    simp at hm
  have hnd : (movRoots (List.replicate (c.length + k) Move.adv)).Nodup := by
    rw [movRoots_replicate_adv]
    exact List.nodup_nil
  obtain ⟨hy, _, _⟩ := sess_master c _ false ⟨h, s, subtrees h ⟨s⟩⟩ [] c [] [] []
    hinv (okRun_replicate_adv false _) hfr hnd
  rw [List.length_replicate, List.take_of_length_le (by omega)] at hy
  have hy2 : (run (sess0 (h, (⟨s⟩ : Forest)))
      (List.replicate (c.length + k) Move.adv)).ylds = c := hy
  exact ⟨hy2, children_list h ⟨s⟩ c hr, by rw [hy2]⟩

/-- C2 witness: the advance-only traversal at a concrete input. -/
theorem spec_c2_cursor_order_witness :
    (run (sess0 ((build [1, 2]).1, (build [1, 2]).2))
      (List.replicate ([1, 2].length + 1) Move.adv)).ylds = [1, 2] :=
  (spec_c2_cursor_order (build [1, 2]).1 (build [1, 2]).2 [1, 2] 1 (by decide)).1

/-- C3 counterexample: a traversal allowed by the claim as stated —
`insert_after 3` then `insert_before 4`, each handle mutated once — after
which the second, fresh traversal visits the 3 nodes [1, 4, 2] rather than
the original count plus the number of insertions (2 + 2). -/
theorem spec_c3_second_count :
    (run (sess0 (build [1, 2])) [Move.aft 3, Move.bef 4]).ylds = [1, 2] ∧
    (run (sess0 (build [1, 2])) [Move.aft 3, Move.bef 4]).inss = [3, 4] ∧
    (run (sess0 ((run (sess0 (build [1, 2])) [Move.aft 3, Move.bef 4]).st.h,
        (⟨(run (sess0 (build [1, 2])) [Move.aft 3, Move.bef 4]).st.s⟩ : Forest)))
      (List.replicate 4 Move.adv)).ylds = [1, 4, 2] ∧
    ¬ ([1, 4, 2] : List Nat).length = [1, 2].length + [3, 4].length := by decide

/-- C3 (amended): in a traversal whose handles each receive at most one
mutation and where the handle right after an `insert_after` is only advanced
past or given another `insert_after`, an inserted root is never yielded by
that same traversal and the visit count is unchanged; a second, fresh
traversal afterwards visits the original count plus the number of
insertions. On children [1, 2] (payloads via `payIns`), `insert_before` of
payload 3 at every position leaves payload order [3, 1, 3, 2], and
`insert_after` leaves [1, 3, 2, 3]. -/
theorem spec_c3_insertion (h : Heap) (f : Forest) (c : List Nat)
    (ms : List Move) (hr : reprF h f c) (hok : okRun false ms)
    (hdet : Move.det ∉ ms) (hfr : ∀ r ∈ movRoots ms, r ∉ c ∧ r ≠ 0)
    (hnd : (movRoots ms).Nodup) :
    ((∀ r ∈ (run (sess0 (h, f)) ms).inss, r ∉ (run (sess0 (h, f)) ms).ylds) ∧
     (run (sess0 (h, f)) ms).ylds.length = min ms.length c.length ∧
     ∃ d, reprF (run (sess0 (h, f)) ms).st.h ⟨(run (sess0 (h, f)) ms).st.s⟩ d ∧
       d.length = c.length + (run (sess0 (h, f)) ms).inss.length ∧
       (run (sess0 ((run (sess0 (h, f)) ms).st.h,
           (⟨(run (sess0 (h, f)) ms).st.s⟩ : Forest)))
         (List.replicate d.length Move.adv)).ylds = d) ∧
    ((run (sess0 (build [1, 2])) [Move.bef 3, Move.bef 4]).ylds = [1, 2] ∧
     reprF (run (sess0 (build [1, 2])) [Move.bef 3, Move.bef 4]).st.h
       ⟨(run (sess0 (build [1, 2])) [Move.bef 3, Move.bef 4]).st.s⟩ [3, 1, 4, 2] ∧
     [3, 1, 4, 2].map payIns = [3, 1, 3, 2]) ∧
    ((run (sess0 (build [1, 2])) [Move.aft 3, Move.aft 4]).ylds = [1, 2] ∧
     reprF (run (sess0 (build [1, 2])) [Move.aft 3, Move.aft 4]).st.h
       ⟨(run (sess0 (build [1, 2])) [Move.aft 3, Move.aft 4]).st.s⟩ [1, 3, 2, 4] ∧
     [1, 3, 2, 4].map payIns = [1, 3, 2, 3]) := by
  obtain ⟨s⟩ := f
  have hinv := sessInit h s c hr
  have hfr2 : ∀ r ∈ movRoots ms, r ∉ c ∧ r ≠ 0 ∧ r ∉ ([] : List Nat) :=
    fun r hm => ⟨(hfr r hm).1, (hfr r hm).2, by simp⟩
  obtain ⟨hy, hins, fp', P', hinv'⟩ :=
    sess_master c ms false ⟨h, s, subtrees h ⟨s⟩⟩ [] c [] [] [] hinv hok hfr2 hnd
  obtain ⟨hrepr2, hmem2, hlen2⟩ := sessInv_chain hinv'
  have hdeps : (run ⟨h, s, subtrees h ⟨s⟩⟩ ms).deps = [] := run_no_det _ ms hdet
  simp only [List.nil_append] at hlen2
  rw [hdeps] at hlen2
  simp only [List.length_nil, Nat.add_zero] at hlen2
  have hy2 : (run (sess0 (h, (⟨s⟩ : Forest))) ms).ylds = c.take ms.length := hy
  refine ⟨⟨?_, ?_, P' ++ c.drop ms.length, hrepr2, hlen2, ?_⟩,
    by decide, by decide⟩
  · intro r hrins hryld
    rw [hy2] at hryld
    exact (hfr r (hins r hrins)).1 (List.take_subset _ _ hryld)
  · rw [hy2, List.length_take]
  · have hinvB := sessInit (run ⟨h, s, subtrees h ⟨s⟩⟩ ms).st.h
      (run ⟨h, s, subtrees h ⟨s⟩⟩ ms).st.s _ hrepr2
    obtain ⟨hyB, _, _⟩ := sess_master (P' ++ c.drop ms.length)
      (List.replicate (P' ++ c.drop ms.length).length Move.adv) false
      _ [] _ [] [] [] hinvB (okRun_replicate_adv false _)
      (by rw [movRoots_replicate_adv]; intro r hm; simp at hm)
      (by rw [movRoots_replicate_adv]; exact List.nodup_nil)
    rw [List.length_replicate, List.take_length] at hyB
    exact hyB

/-- C3 witness: the amended insertion discipline at a concrete input. -/
theorem spec_c3_insertion_witness :
    (run (sess0 ((build [1, 2]).1, (build [1, 2]).2)) [Move.adv]).ylds.length
      = min [Move.adv].length ([1, 2] : List Nat).length :=
  (spec_c3_insertion (build [1, 2]).1 (build [1, 2]).2 [1, 2] [Move.adv]
    (by decide) (by decide) (by decide) (by decide) (by decide)).1.2.1

/-- C4: departing the current node resets its sibling link to the terminal
self-loop and removes exactly it, with the three tail-slot cases: cleared
when it was the sole child, moved to the predecessor when it was the tail,
otherwise left in place with the predecessor relinked around the node.
Mid-traversal on [1, 2, 3], detaching 2 still yields 3 next and leaves the
forest owning [1, 3]. -/
theorem spec_c4_depart (h : Heap) (f : Forest) (xs ys : List Nat) (n : Nat)
    (hr : reprF h f (xs ++ n :: ys)) :
    ((depart h f.sub ⟨n, xs.getLastD ((xs ++ n :: ys).getLastD 0)⟩).2.2 = n ∧
     (depart h f.sub ⟨n, xs.getLastD ((xs ++ n :: ys).getLastD 0)⟩).1 n = n ∧
     reprF (depart h f.sub ⟨n, xs.getLastD ((xs ++ n :: ys).getLastD 0)⟩).1
       ⟨(depart h f.sub ⟨n, xs.getLastD ((xs ++ n :: ys).getLastD 0)⟩).2.1⟩
       (xs ++ ys) ∧
     (depart h f.sub ⟨n, xs.getLastD ((xs ++ n :: ys).getLastD 0)⟩).2.1
       = (if ys = [] then xs.getLastD 0 else f.sub)) ∧
    ((run (sess0 (build [1, 2, 3])) [Move.adv, Move.det, Move.adv]).ylds
       = [1, 2, 3] ∧
     (run (sess0 (build [1, 2, 3])) [Move.adv, Move.det, Move.adv]).deps = [2] ∧
     reprF (run (sess0 (build [1, 2, 3])) [Move.adv, Move.det, Move.adv]).st.h
       ⟨(run (sess0 (build [1, 2, 3])) [Move.adv, Move.det, Move.adv]).st.s⟩
       [1, 3]) := by
  refine ⟨?_, by decide⟩
  set p := xs.getLastD ((xs ++ n :: ys).getLastD 0) with hp
  have hd := depart_unfold h f.sub n p
  have h1 : (depart h f.sub ⟨n, p⟩).1 = upd (upd h p (h n)) n n := by rw [hd]
  have h21 : (depart h f.sub ⟨n, p⟩).2.1
      = if f.sub = n then (if h n = n then 0 else p) else f.sub := by rw [hd]
  have h22 : (depart h f.sub ⟨n, p⟩).2.2 = n := by rw [hd]
  have hcase := depart_sub_eq h f xs ys n hr
  refine ⟨h22, ?_, ?_, ?_⟩
  · rw [h1]
    exact remove_reset h p n
  · rw [h1, h21, hcase]
    exact remove_repr h f xs ys n hr
  · rw [h21]
    exact hcase

/-- C4 witness: depart of an interior node at a concrete input. -/
theorem spec_c4_depart_witness :
    (depart (build [1, 2, 3]).1 (build [1, 2, 3]).2.sub
      ⟨2, [1].getLastD ((([1] ++ 2 :: [3]) : List Nat).getLastD 0)⟩).2.2 = 2 :=
  (spec_c4_depart (build [1, 2, 3]).1 (build [1, 2, 3]).2 [1] [3] 2
    (by decide)).1.1

/-- C5: `append` leaves the target owning its children followed by the
argument's, `prepend` the argument's followed by its own, the argument
forest emptied in both; an empty operand makes either splice the identity
on the other. Appending address chain [3, 4] onto [1, 2] (payloads via
`payApp`) gives payload order [0, 1, 2, 3]; prepending gives [2, 3, 0, 1]. -/
theorem spec_c5_splice (h : Heap) (f g : Forest) (la lb : List Nat)
    (hra : reprF h f la) (hrb : reprF h g lb) (hdisj : ∀ x ∈ la, x ∉ lb) :
    (reprF (append h f g).1 (append h f g).2.1 (la ++ lb) ∧
     (append h f g).2.2.sub = 0 ∧
     reprF (prepend h f g).1 (prepend h f g).2.1 (lb ++ la) ∧
     (prepend h f g).2.2.sub = 0) ∧
    (g.sub = 0 → append h f g = (h, f, g) ∧ prepend h f g = (h, f, g)) ∧
    (f.sub = 0 → (append h f g).1 = h ∧ (append h f g).2.1.sub = g.sub ∧
      (prepend h f g).1 = h ∧ (prepend h f g).2.1.sub = g.sub) ∧
    (reprF (append twoF.1 (build [1, 2]).2 twoF.2).1
       (append twoF.1 (build [1, 2]).2 twoF.2).2.1 [1, 2, 3, 4] ∧
     (append twoF.1 (build [1, 2]).2 twoF.2).2.2.sub = 0 ∧
     [1, 2, 3, 4].map payApp = [0, 1, 2, 3] ∧
     reprF (prepend twoF.1 (build [1, 2]).2 twoF.2).1
       (prepend twoF.1 (build [1, 2]).2 twoF.2).2.1 [3, 4, 1, 2] ∧
     [3, 4, 1, 2].map payApp = [2, 3, 0, 1]) := by
  obtain ⟨hA1, hA2, _⟩ := append_repr h f g la lb hra hrb hdisj
  obtain ⟨hP1, hP2, _⟩ := prepend_repr h f g la lb hra hrb hdisj
  refine ⟨⟨hA1, hA2, hP1, hP2⟩, ?_, ?_, by decide⟩
  · intro hg0
    constructor
    · rw [append, if_neg (fun hc => hc hg0)]
    · rw [prepend, if_neg (fun hc => hc hg0)]
  · intro hf0
    by_cases hg0 : g.sub = 0
    · have ha : append h f g = (h, f, g) := by
        rw [append, if_neg (fun hc => hc hg0)]
      have hpp : prepend h f g = (h, f, g) := by
        rw [prepend, if_neg (fun hc => hc hg0)]
      rw [ha, hpp]
      exact ⟨rfl, hf0.trans hg0.symm, rfl, hf0.trans hg0.symm⟩
    · have ha : append h f g = (h, ⟨g.tail⟩, ⟨0⟩) := by
        rw [append, if_pos hg0, if_neg (fun hc => hc hf0)]
      have hpp : prepend h f g = (h, ⟨g.tail⟩, ⟨0⟩) := by
        rw [prepend, if_pos hg0, if_pos hf0]
      rw [ha, hpp]
      exact ⟨rfl, rfl, rfl, rfl⟩

/-- C5 witness: the splice contracts at a concrete input. -/
theorem spec_c5_splice_witness :
    reprF (append twoF.1 (build [1, 2]).2 twoF.2).1
      (append twoF.1 (build [1, 2]).2 twoF.2).2.1 (([1, 2] : List Nat) ++ [3, 4]) :=
  (spec_c5_splice twoF.1 (build [1, 2]).2 twoF.2 [1, 2] [3, 4]
    (by decide) (by decide) (by decide)).1.1

/-- C6: `children`/`children_mut` yield the direct children head to tail and
stop after the tail even with surplus fuel (never wrapping the cycle), and
the size hint is exact at every step: after `k` steps both its components
equal the number of elements remaining; the mutable iterator steps exactly
as the shared one. -/
theorem spec_c6_children_exact (h : Heap) (f : Forest) (c : List Nat)
    (hr : reprF h f c) :
    (∀ j, iterToList h (children h f c.length) (c.length + j) = c) ∧
    (∀ k, k ≤ c.length → (iterSteps h (children h f c.length) k).size_hint
        = (c.length - k, some (c.length - k))) ∧
    (∀ it, IterMut.next h it = Iter.next h it) := by
  have hch : children h f c.length = ⟨c.headD 0, f.sub, c.length⟩ :=
    children_eq h f c hr c.length
  refine ⟨?_, ?_, fun it => rfl⟩
  · intro j
    rw [hch]
    exact iter_yields h f c hr c [] j c.length rfl
  · intro k hk
    rw [hch, iter_states h f c hr c [] k c.length rfl hk]
    rfl

/-- C6 witness: the children iterator at a concrete input. -/
theorem spec_c6_children_exact_witness :
    iterToList (build [1, 2]).1
      (children (build [1, 2]).1 (build [1, 2]).2 ([1, 2] : List Nat).length)
      (([1, 2] : List Nat).length + 1) = [1, 2] :=
  (spec_c6_children_exact (build [1, 2]).1 (build [1, 2]).2 [1, 2] (by decide)).1 1

/-- C7: `append` and `prepend` are associative with respect to resulting
child order: both association orders over three disjoint represented forests
leave the surviving forest owning the same chain, and `children` enumerates
the same sequence for both. -/
theorem spec_c7_assoc (h : Heap) (fa fb fc : Forest) (la lb lc : List Nat)
    (hra : reprF h fa la) (hrb : reprF h fb lb) (hrc : reprF h fc lc)
    (hab : ∀ x ∈ la, x ∉ lb) (hac : ∀ x ∈ la, x ∉ lc)
    (hbc : ∀ x ∈ lb, x ∉ lc) :
    (reprF (appL h fa fb fc).1 (appL h fa fb fc).2.1 (la ++ (lb ++ lc)) ∧
     reprF (appR h fa fb fc).1 (appR h fa fb fc).2.1 (la ++ (lb ++ lc)) ∧
     iterToList (appL h fa fb fc).1
        (children (appL h fa fb fc).1 (appL h fa fb fc).2.1
          (la ++ (lb ++ lc)).length) (la ++ (lb ++ lc)).length
       = iterToList (appR h fa fb fc).1
        (children (appR h fa fb fc).1 (appR h fa fb fc).2.1
          (la ++ (lb ++ lc)).length) (la ++ (lb ++ lc)).length) ∧
    (reprF (prepL h fa fb fc).1 (prepL h fa fb fc).2.1 (lc ++ (lb ++ la)) ∧
     reprF (prepR h fa fb fc).1 (prepR h fa fb fc).2.1 (lc ++ (lb ++ la))) := by
  have hpos_c : 0 ∉ lc := hrc.2.2.2
  have hpos_a : 0 ∉ la := hra.2.2.2
  -- left-associated append
  obtain ⟨hab1, _, habf⟩ := append_repr h fa fb la lb hra hrb hab
  have hrc1 : reprF (append h fa fb).1 fc lc := by
    refine reprF_frame h _ fc lc (fun a ha => ?_) hrc
    exact habf a (sub_notin h fa la lc hra hac hpos_c a ha)
      (sub_notin h fb lb lc hrb hbc hpos_c a ha)
  have hdisj1 : ∀ x ∈ la ++ lb, x ∉ lc := by
    intro x hx
    rcases List.mem_append.mp hx with hx | hx
    · exact hac x hx
    · exact hbc x hx
  obtain ⟨hL, _, _⟩ :=
    append_repr (append h fa fb).1 (append h fa fb).2.1 fc (la ++ lb) lc
      hab1 hrc1 hdisj1
  rw [List.append_assoc] at hL
  -- right-associated append
  obtain ⟨hbc1, _, hbcf⟩ := append_repr h fb fc lb lc hrb hrc hbc
  have hra1 : reprF (append h fb fc).1 fa la := by
    refine reprF_frame h _ fa la (fun a ha => ?_) hra
    exact hbcf a (sub_notin h fb lb la hrb (fun x hx hy => hab x hy hx) hpos_a a ha)
      (sub_notin h fc lc la hrc (fun x hx hy => hac x hy hx) hpos_a a ha)
  have hdisj2 : ∀ x ∈ la, x ∉ lb ++ lc := by
    intro x hx hmem
    rcases List.mem_append.mp hmem with hy | hy
    · exact hab x hx hy
    · exact hac x hx hy
  obtain ⟨hR, _, _⟩ :=
    append_repr (append h fb fc).1 fa (append h fb fc).2.1 la (lb ++ lc)
      hra1 hbc1 hdisj2
  -- left-associated prepend
  obtain ⟨hpab1, _, hpabf⟩ := prepend_repr h fa fb la lb hra hrb hab
  have hprc1 : reprF (prepend h fa fb).1 fc lc := by
    refine reprF_frame h _ fc lc (fun a ha => ?_) hrc
    exact hpabf a (sub_notin h fa la lc hra hac hpos_c a ha)
      (sub_notin h fb lb lc hrb hbc hpos_c a ha)
  have hpd1 : ∀ x ∈ lb ++ la, x ∉ lc := by
    intro x hx
    rcases List.mem_append.mp hx with hx | hx
    · exact hbc x hx
    · exact hac x hx
  obtain ⟨hPL, _, _⟩ :=
    prepend_repr (prepend h fa fb).1 (prepend h fa fb).2.1 fc (lb ++ la) lc
      hpab1 hprc1 hpd1
  -- right-associated prepend
  obtain ⟨hpbc1, _, hpbcf⟩ := prepend_repr h fb fc lb lc hrb hrc hbc
  have hpra1 : reprF (prepend h fb fc).1 fa la := by
    refine reprF_frame h _ fa la (fun a ha => ?_) hra
    exact hpbcf a (sub_notin h fb lb la hrb (fun x hx hy => hab x hy hx) hpos_a a ha)
      (sub_notin h fc lc la hrc (fun x hx hy => hac x hy hx) hpos_a a ha)
  have hpd2 : ∀ x ∈ la, x ∉ lc ++ lb := by
    intro x hx hmem
    rcases List.mem_append.mp hmem with hy | hy
    · exact hac x hx hy
    · exact hab x hx hy
  obtain ⟨hPR, _, _⟩ :=
    prepend_repr (prepend h fb fc).1 fa (prepend h fb fc).2.1 la (lc ++ lb)
      hpra1 hpbc1 hpd2
  rw [List.append_assoc] at hPR
  have hL2 : reprF (appL h fa fb fc).1 (appL h fa fb fc).2.1
      (la ++ (lb ++ lc)) := hL
  have hR2 : reprF (appR h fa fb fc).1 (appR h fa fb fc).2.1
      (la ++ (lb ++ lc)) := hR
  have hPL2 : reprF (prepL h fa fb fc).1 (prepL h fa fb fc).2.1
      (lc ++ (lb ++ la)) := hPL
  have hPR2 : reprF (prepR h fa fb fc).1 (prepR h fa fb fc).2.1
      (lc ++ (lb ++ la)) := hPR
  refine ⟨⟨hL2, hR2, ?_⟩, hPL2, hPR2⟩
  rw [children_list _ _ _ hL2, children_list _ _ _ hR2]

/-- C7 witness: associativity at a concrete input. -/
theorem spec_c7_assoc_witness :
    reprF (appL threeH.1 (build [1, 2]).2 twoF.2 threeH.2).1
      (appL threeH.1 (build [1, 2]).2 twoF.2 threeH.2).2.1
      (([1, 2] : List Nat) ++ ([3, 4] ++ [5, 6])) :=
  (spec_c7_assoc threeH.1 (build [1, 2]).2 twoF.2 threeH.2 [1, 2] [3, 4] [5, 6]
    (by decide) (by decide) (by decide) (by decide) (by decide) (by decide)).1.1

/-- C8: popping the front of a nonempty forest and immediately pushing the
returned tree back at the front restores the original: the same forest value
and, pointwise, the same sibling heap. -/
theorem spec_c8_pop_push (h : Heap) (f : Forest) (c : List Nat)
    (hr : reprF h f c) (hne : c ≠ []) :
    ∃ a, (pop_front h f).2.2 = some a ∧
      (push_front (pop_front h f).1 (pop_front h f).2.1 a).2 = f ∧
      ∀ x, (push_front (pop_front h f).1 (pop_front h f).2.1 a).1 x = h x := by
  obtain ⟨s⟩ := f
  cases c with
  | nil => exact absurd rfl hne
  | cons a t =>
    refine ⟨a, ?_⟩
    have h0 : s ≠ 0 := fun he => by
      have := (reprF_zero_iff h ⟨s⟩ (a :: t) hr).mp he
      simp at this
    have hhead : h s = a := by
      have := reprF_head_link h ⟨s⟩ (a :: t) hr (by simp)
      rwa [List.headD_cons] at this
    cases t with
    | nil =>
      have hsub : s = a := by
        have := hr.1
        rw [List.getLastD_cons, List.getLastD_nil] at this
        exact this.symm
      have haa : h a = a := hsub ▸ hhead
      have hone : (⟨s⟩ : Forest).has_only_one_child h = true := by
        rw [Forest.has_only_one_child, Forest.head, Forest.tail, hhead, hsub]
        exact beq_self_eq_true a
      have hunf : pop_front h ⟨s⟩ = (upd h a a, ⟨0⟩, some a) := by
        rw [pop_front, if_neg h0]
        show (upd (if (⟨s⟩ : Forest).has_only_one_child h then (h, (⟨0⟩ : Forest))
          else (upd h (⟨s⟩ : Forest).tail ((⟨s⟩ : Forest).new_head h), ⟨s⟩)).1
          (h s) (h s),
          (if (⟨s⟩ : Forest).has_only_one_child h then (h, (⟨0⟩ : Forest))
          else (upd h (⟨s⟩ : Forest).tail ((⟨s⟩ : Forest).new_head h), ⟨s⟩)).2,
          some (h s)) = _
        rw [hone, hhead]
        simp
      have hq1 : (pop_front h ⟨s⟩).1 = upd h a a := by rw [hunf]
      have hq2 : (pop_front h ⟨s⟩).2.1 = ⟨0⟩ := by rw [hunf]
      have hq3 : (pop_front h ⟨s⟩).2.2 = some a := by rw [hunf]
      rw [hq1, hq2, hq3]
      have hpf : push_front (upd h a a) ⟨0⟩ a = (upd h a a, ⟨a⟩) := by
        rw [push_front, if_pos rfl]
      rw [hpf]
      refine ⟨rfl, by rw [hsub], ?_⟩
      intro x
      show upd h a a x = h x
      by_cases hx : x = a
      · subst hx
        rw [upd_same]
        exact haa.symm
      · rw [upd_other _ _ _ _ hx]
    | cons b yt =>
      have hsubt : s = (b :: yt).getLastD 0 := by
        have := hr.1
        rw [List.getLastD_cons, glD_irrel (b :: yt) (by simp) a 0] at this
        exact this.symm
      have hsubmem : s ∈ (b :: yt) := hsubt ▸ glD_mem (b :: yt) (by simp) 0
      have hsubne : s ≠ a := fun he =>
        (List.nodup_cons.mp hr.2.2.1).1 (he ▸ hsubmem)
      have hone : (⟨s⟩ : Forest).has_only_one_child h = false := by
        rw [Forest.has_only_one_child, Forest.head, Forest.tail, hhead]
        exact beq_eq_false_iff_ne.mpr (fun he => hsubne he.symm)
      have hlink : h a = b := by
        have h2 := hr.2.1.1
        rwa [show ((b :: yt).headD ((a :: b :: yt : List Nat).headD 0)) = b
          from rfl] at h2
      have hunf : pop_front h ⟨s⟩ = (upd (upd h s b) a a, ⟨s⟩, some a) := by
        rw [pop_front, if_neg h0]
        show (upd (if (⟨s⟩ : Forest).has_only_one_child h then (h, (⟨0⟩ : Forest))
          else (upd h (⟨s⟩ : Forest).tail ((⟨s⟩ : Forest).new_head h), ⟨s⟩)).1
          (h s) (h s),
          (if (⟨s⟩ : Forest).has_only_one_child h then (h, (⟨0⟩ : Forest))
          else (upd h (⟨s⟩ : Forest).tail ((⟨s⟩ : Forest).new_head h), ⟨s⟩)).2,
          some (h s)) = _
        rw [hone, hhead]
        show (upd (upd h s (h (h s))) a a, (⟨s⟩ : Forest), some a) = _
        rw [hhead, hlink]
      have hq1 : (pop_front h ⟨s⟩).1 = upd (upd h s b) a a := by rw [hunf]
      have hq2 : (pop_front h ⟨s⟩).2.1 = ⟨s⟩ := by rw [hunf]
      have hq3 : (pop_front h ⟨s⟩).2.2 = some a := by rw [hunf]
      rw [hq1, hq2, hq3]
      have hvs : (upd (upd h s b) a a) s = b := by
        rw [upd_other _ _ _ _ hsubne, upd_same]
      have hpf : push_front (upd (upd h s b) a a) ⟨s⟩ a
          = (upd (upd (upd (upd h s b) a a) a b) s a, ⟨s⟩) := by
        rw [push_front, if_neg h0]
        show (upd (upd (upd (upd h s b) a a) a ((upd (upd h s b) a a) s)) s a,
          (⟨s⟩ : Forest)) = _
        rw [hvs]
      rw [hpf]
      refine ⟨rfl, rfl, ?_⟩
      intro x
      show (upd (upd (upd (upd h s b) a a) a b) s a) x = h x
      by_cases hxs : x = s
      · subst hxs
        rw [upd_same]
        exact hhead.symm
      · rw [upd_other _ _ _ _ hxs]
        by_cases hxa : x = a
        · subst hxa
          rw [upd_same]
          exact hlink.symm
        · rw [upd_other _ _ _ _ hxa, upd_other _ _ _ _ hxa,
            upd_other _ _ _ _ hxs]

/-- C8 witness: the pop-then-push round trip at a concrete input. -/
theorem spec_c8_pop_push_witness :
    ∃ a, (pop_front (build [1, 2]).1 (build [1, 2]).2).2.2 = some a ∧
      (push_front (pop_front (build [1, 2]).1 (build [1, 2]).2).1
        (pop_front (build [1, 2]).1 (build [1, 2]).2).2.1 a).2 = (build [1, 2]).2 ∧
      ∀ x, (push_front (pop_front (build [1, 2]).1 (build [1, 2]).2).1
        (pop_front (build [1, 2]).1 (build [1, 2]).2).2.1 a).1 x
          = (build [1, 2]).1 x :=
  spec_c8_pop_push (build [1, 2]).1 (build [1, 2]).2 [1, 2] (by decide) (by decide)

/-- C9: `pop_front` returns the empty indicator exactly on the empty forest
and then leaves heap and forest untouched; the edge branches are handled,
not errors: splicing in an empty argument is a no-op, and popping a sole
child empties the forest cleanly. -/
theorem spec_c9_total_edges (h : Heap) (f : Forest) :
    ((pop_front h f).2.2 = none ↔ f.is_empty = true) ∧
    (f.is_empty = true → pop_front h f = (h, f, none)) ∧
    (∀ g : Forest, g.is_empty = true →
      append h f g = (h, f, g) ∧ prepend h f g = (h, f, g)) ∧
    (∀ a, reprF h f [a] →
      (pop_front h f).2.2 = some a ∧ (pop_front h f).2.1.is_empty = true ∧
        reprF (pop_front h f).1 (pop_front h f).2.1 []) := by
  have hemp : f.is_empty = true ↔ f.sub = 0 := by
    rw [Forest.is_empty, beq_iff_eq]
  refine ⟨?_, ?_, ?_, ?_⟩
  · by_cases h0 : f.sub = 0
    · have hu : pop_front h f = (h, f, none) := by rw [pop_front, if_pos h0]
      rw [hu]
      simp [hemp, h0]
    · have hsome : (pop_front h f).2.2 = some (h f.sub) := by
        rw [pop_front, if_neg h0]
        rfl
      rw [hsome]
      simp [hemp, h0]
  · intro he
    rw [pop_front, if_pos (hemp.mp he)]
  · intro g hg
    have hg0 : g.sub = 0 := by
      rw [Forest.is_empty, beq_iff_eq] at hg
      exact hg
    constructor
    · rw [append, if_neg (fun hc => hc hg0)]
    · rw [prepend, if_neg (fun hc => hc hg0)]
  · intro a hra
    obtain ⟨hsome, hrest, _⟩ := pop_front_repr h f a [] hra
    have hz : (pop_front h f).2.1.sub = 0 := hrest.1.symm
    refine ⟨hsome, ?_, hrest⟩
    rw [Forest.is_empty, hz]
    rfl

/-- C10: a cursor opened on an empty forest yields nothing under any move
sequence, and the heap and the forest are left exactly as they were. -/
theorem spec_c10_empty_cursor (h : Heap) (f : Forest) (ms : List Move)
    (he : f.is_empty = true) :
    run (sess0 (h, f)) ms = ⟨sess0 (h, f), [], [], []⟩ := by
  have h0 : f.sub = 0 := by
    rw [Forest.is_empty, beq_iff_eq] at he
    exact he
  apply run_stopped
  show (subtrees h f).child = 0
  rw [subtrees, if_pos h0]

/-- C10 witness: the empty-forest cursor at a concrete input. -/
theorem spec_c10_empty_cursor_witness :
    run (sess0 ((build []).1, (build []).2)) [Move.adv, Move.det]
      = ⟨sess0 ((build []).1, (build []).2), [], [], []⟩ :=
  spec_c10_empty_cursor (build []).1 (build []).2 [Move.adv, Move.det] (by decide)

end Trees
